import Mathlib

/-!
eventer: the listener registry and its two emitters

A shallow embedding of `eventer.go`.

* A Go `EventListener` interface value is an `Option α`: `none` is the nil
  interface, `some a` is a non-nil value whose identity is `a` (an interface
  that wraps a nil pointer is not the nil interface, so it is a `some`).  Go's
  `==` on two interface values is equality of identities, hence
  `DecidableEq α`; listeners of a dynamic type that Go cannot compare are
  outside the model.
* `sharedEventEmitter` is the struct of the source without its `sync.RWMutex`:
  every method body runs under the lock from its first to its last statement,
  so a method is one atomic step on the `listeners` field.
* A method with a pointer receiver becomes a function that returns the new
  receiver next to the Go result.
* Run-time panics of the Go builtins used by the source (`make` with a negative
  capacity, slice expressions and index expressions out of range, a method call
  on a nil interface) are explicit: every operation returns `Except Panic _`.
  A slice is a `List`; its capacity is not modelled, the bound of a slice
  expression is the length (in this program every slice is filled up to the
  capacity it was made with, so both agree).
-/

namespace Eventer

/-- An `EventListener` interface value; `none` is the nil interface. -/
abbrev EventListener (α : Type) := Option α

/-- The run-time panics the source can raise. -/
inductive Panic where
  | makesliceCap
  | sliceBounds
  | indexRange
  | nilDeref
  deriving DecidableEq, Repr

/-- The struct `sharedEventEmitter` (the lock is left out). -/
structure sharedEventEmitter (α : Type) where
  listeners : List (EventListener α)
  deriving DecidableEq, Repr

/-- The zero value `&SyncEventEmitter{}` / `&AsyncEventEmitter{}`: a nil slice. -/
def sharedEventEmitter.zero {α : Type} : sharedEventEmitter α := ⟨[]⟩

/-- Both emitters embed `sharedEventEmitter` and add no field. -/
abbrev SyncEventEmitter (α : Type) := sharedEventEmitter α

/-- Both emitters embed `sharedEventEmitter` and add no field. -/
abbrev AsyncEventEmitter (α : Type) := sharedEventEmitter α

/-! ## Go builtins -/

/-- Builtin `make([]EventListener, 0, cap)`: panics on a negative capacity. -/
def make {β : Type} (cap : Int) : Except Panic (List β) :=
  if cap < 0 then .error .makesliceCap else .ok []

/-- Slice expression `xs[:hi]`. -/
def sliceTo {β : Type} (xs : List β) (hi : Nat) : Except Panic (List β) :=
  if hi ≤ xs.length then .ok (xs.take hi) else .error .sliceBounds

/-- Slice expression `xs[lo:]`. -/
def sliceFrom {β : Type} (xs : List β) (lo : Nat) : Except Panic (List β) :=
  if lo ≤ xs.length then .ok (xs.drop lo) else .error .sliceBounds

/-- Index expression `xs[i]`. -/
def index {β : Type} (xs : List β) (i : Nat) : Except Panic β :=
  match xs[i]? with
  | some x => .ok x
  | none => .error .indexRange

/-! ## The registry -/

section Registry

variable {α : Type} [DecidableEq α]

/-- The loop of `AddListener` (lines 48-52): `true` when an entry equals `l`,
that is when the loop leaves the method with `return false`. -/
def AddListener.registered (l : EventListener α) : List (EventListener α) → Bool
  | [] => false
  | listener :: rest => if listener = l then true else AddListener.registered l rest

/-- Method `AddListener` (lines 38-63). -/
def sharedEventEmitter.AddListener (s : sharedEventEmitter α) (l : EventListener α) :
    Except Panic (Bool × sharedEventEmitter α) :=
  if l = none then
    .ok (false, s)
  else if AddListener.registered l s.listeners then
    .ok (false, s)
  else
    match make ((s.listeners.length : Int) + 1) with
    | .error p => .error p
    | .ok c =>
      let c := c ++ s.listeners
      let c := c ++ [l]
      .ok (true, { s with listeners := c })

/-- The loop of `RemoveListener` (lines 69-79) from index `i` on, with
`remaining` iterations of `for i := range s.listeners` still to do. -/
def RemoveListener.loop (s : sharedEventEmitter α) (l : EventListener α) :
    Nat → Nat → Except Panic (Bool × sharedEventEmitter α)
  | _, 0 => .ok (false, s)
  | i, remaining + 1 =>
    match index s.listeners i with
    | .error p => .error p
    | .ok x =>
      if x = l then
        match make ((s.listeners.length : Int) - 1) with
        | .error p => .error p
        | .ok c =>
          match sliceTo s.listeners i with
          | .error p => .error p
          | .ok front =>
            let c := c ++ front
            match sliceFrom s.listeners (i + 1) with
            | .error p => .error p
            | .ok back =>
              let c := c ++ back
              .ok (true, { s with listeners := c })
      else RemoveListener.loop s l (i + 1) remaining

/-- Method `RemoveListener` (lines 65-82). -/
def sharedEventEmitter.RemoveListener (s : sharedEventEmitter α) (l : EventListener α) :
    Except Panic (Bool × sharedEventEmitter α) :=
  RemoveListener.loop s l 0 s.listeners.length

/-- A call of one of the two registry methods of the `EventEmitter` interface. -/
inductive Call (α : Type) where
  | add (l : EventListener α)
  | remove (l : EventListener α)
  deriving DecidableEq, Repr

/-- Performs one call. -/
def Call.apply (c : Call α) (s : sharedEventEmitter α) :
    Except Panic (Bool × sharedEventEmitter α) :=
  match c with
  | .add l => s.AddListener l
  | .remove l => s.RemoveListener l

/-- Performs the calls one after the other; gives the returned booleans in call
order and the final receiver. -/
def runCalls : List (Call α) → sharedEventEmitter α →
    Except Panic (List Bool × sharedEventEmitter α)
  | [], s => .ok ([], s)
  | c :: cs, s =>
    match c.apply s with
    | .error p => .error p
    | .ok (b, s1) =>
      match runCalls cs s1 with
      | .error p => .error p
      | .ok (bs, s2) => .ok (b :: bs, s2)

/-- A registry state obtained from the zero value by finitely many
`AddListener` / `RemoveListener` calls with arbitrary arguments. -/
def Reachable (s : sharedEventEmitter α) : Prop :=
  ∃ (cs : List (Call α)) (bs : List Bool), runCalls cs sharedEventEmitter.zero = .ok (bs, s)

/-- The registry invariant: no duplicate entry and no nil entry. -/
def Inv (s : sharedEventEmitter α) : Prop :=
  s.listeners.Nodup ∧ none ∉ s.listeners

end Registry

/-! ## Handlers and emission -/

/-- What the body of a listener's `HandleEvent` does to the emitter that is
delivering to it: a finite tree of `AddListener` / `RemoveListener` calls, each
continuing with the boolean the call returned.  A handler terminates, does not
panic by itself and does not emit from inside an emission. -/
inductive Body (α : Type) where
  | ret : Body α
  | add : EventListener α → (Bool → Body α) → Body α
  | remove : EventListener α → (Bool → Body α) → Body α

section Emit

variable {α ε : Type} [DecidableEq α]

/-- Runs a handler body against the emitter. -/
def Body.run : Body α → sharedEventEmitter α → Except Panic (sharedEventEmitter α)
  | .ret, s => .ok s
  | .add l k, s =>
    match s.AddListener l with
    | .error p => .error p
    | .ok (b, s1) => (k b).run s1
  | .remove l k, s =>
    match s.RemoveListener l with
    | .error p => .error p
    | .ok (b, s1) => (k b).run s1

/-- The loop of `SyncEventEmitter.EmitEvent` (lines 113-115) over the local
`listeners`; `sy` is the live emitter the handlers act on, `log` the
`HandleEvent` invocations made so far. -/
def SyncEventEmitter.EmitEvent.loop (handle : α → ε → Body α) (event : ε) :
    List (EventListener α) → SyncEventEmitter α → List (α × ε) →
    Except Panic (SyncEventEmitter α × List (α × ε))
  | [], sy, log => .ok (sy, log)
  | none :: _, _, _ => .error .nilDeref
  | some a :: rest, sy, log =>
    match (handle a event).run sy with
    | .error p => .error p
    | .ok sy1 => SyncEventEmitter.EmitEvent.loop handle event rest sy1 (log ++ [(a, event)])

/-- Method `SyncEventEmitter.EmitEvent` (lines 108-116): gives the emitter left
by the handlers and the `HandleEvent` invocations in the order they were made. -/
def SyncEventEmitter.EmitEvent (handle : α → ε → Body α) (sy : SyncEventEmitter α) (event : ε) :
    Except Panic (SyncEventEmitter α × List (α × ε)) :=
  let listeners := sy.listeners
  SyncEventEmitter.EmitEvent.loop handle event listeners sy []

/-- The loop of `AsyncEventEmitter.EmitEvent` (lines 96-98): the tasks handed to
the scheduler by the `go` statements, in the order they were started. -/
def AsyncEventEmitter.EmitEvent.loop (event : ε) :
    List (EventListener α) → List (α × ε) → Except Panic (List (α × ε))
  | [], tasks => .ok tasks
  | none :: _, _ => .error .nilDeref
  | some a :: rest, tasks => AsyncEventEmitter.EmitEvent.loop event rest (tasks ++ [(a, event)])

/-- Method `AsyncEventEmitter.EmitEvent` (lines 91-99). -/
def AsyncEventEmitter.EmitEvent (asy : AsyncEventEmitter α) (event : ε) :
    Except Panic (List (α × ε)) :=
  let listeners := asy.listeners
  AsyncEventEmitter.EmitEvent.loop event listeners []

/-- Runs handler bodies one after the other against the emitter. -/
def runBodies : List (Body α) → sharedEventEmitter α → Except Panic (sharedEventEmitter α)
  | [], s => .ok s
  | b :: bs, s =>
    match b.run s with
    | .error p => .error p
    | .ok s1 => runBodies bs s1

/-- The registry calls a handler body makes when it runs from `s`, in the order
it makes them. -/
def Body.calls : Body α → sharedEventEmitter α → List (Call α)
  | .ret, _ => []
  | .add l k, s =>
    match s.AddListener l with
    | .error _ => [Call.add l]
    | .ok (b, s1) => Call.add l :: (k b).calls s1
  | .remove l k, s =>
    match s.RemoveListener l with
    | .error _ => [Call.remove l]
    | .ok (b, s1) => Call.remove l :: (k b).calls s1

/-- The registry calls the handlers make during the loop of
`SyncEventEmitter.EmitEvent` over the local `listeners`, in the order they are
made; `sy` is the live emitter. -/
def emitCalls (handle : α → ε → Body α) (event : ε) :
    List (EventListener α) → SyncEventEmitter α → List (Call α)
  | [], _ => []
  | none :: _, _ => []
  | some a :: rest, sy =>
    match (handle a event).run sy with
    | .error _ => (handle a event).calls sy
    | .ok sy1 => (handle a event).calls sy ++ emitCalls handle event rest sy1

/-- One operation of a client of a `SyncEventEmitter`: a registry call, or an
`EmitEvent` during which the listeners behave as `handle` says. -/
inductive Op (α ε : Type) where
  | call (c : Call α)
  | emit (handle : α → ε → Body α) (event : ε)

/-- Performs the operations one after the other on a `SyncEventEmitter`; `log`
collects the `HandleEvent` invocations of all the emissions in order. -/
def runOps : List (Op α ε) → SyncEventEmitter α → List (α × ε) →
    Except Panic (SyncEventEmitter α × List (α × ε))
  | [], sy, log => .ok (sy, log)
  | .call c :: ops, sy, log =>
    match c.apply sy with
    | .error p => .error p
    | .ok (_, sy1) => runOps ops sy1 log
  | .emit handle event :: ops, sy, log =>
    match SyncEventEmitter.EmitEvent handle sy event with
    | .error p => .error p
    | .ok (sy1, log1) => runOps ops sy1 (log ++ log1)

/-- The registry calls made while the operations run from `sy`, the direct ones
and those of the handlers of the emissions, in the order they are made. -/
def opsCalls : List (Op α ε) → SyncEventEmitter α → List (Call α)
  | [], _ => []
  | .call c :: ops, sy =>
    match c.apply sy with
    | .error _ => [c]
    | .ok (_, sy1) => c :: opsCalls ops sy1
  | .emit handle event :: ops, sy =>
    match SyncEventEmitter.EmitEvent handle sy event with
    | .error _ => emitCalls handle event sy.listeners sy
    | .ok (sy1, _) => emitCalls handle event sy.listeners sy ++ opsCalls ops sy1

/-- Number of `AddListener` calls that returned true, among calls paired with
their results. -/
def addsTrue : List (Call α × Bool) → Nat
  | [] => 0
  | (.add _, true) :: rest => addsTrue rest + 1
  | _ :: rest => addsTrue rest

/-- Number of `RemoveListener` calls that returned true, among calls paired with
their results. -/
def removesTrue : List (Call α × Bool) → Nat
  | [] => 0
  | (.remove _, true) :: rest => removesTrue rest + 1
  | _ :: rest => removesTrue rest

end Emit

/-! ## Helper lemmas -/

section Lemmas

variable {α ε : Type} [DecidableEq α]

theorem registered_iff (l : EventListener α) (ls : List (EventListener α)) :
    AddListener.registered l ls = true ↔ l ∈ ls := by
  induction ls with
  | nil => simp [AddListener.registered]
  | cons x xs ih =>
    unfold AddListener.registered
    by_cases h : x = l
    · simp [h]
    · have h2 : ¬ l = x := fun e => h e.symm
      simp [h, h2, ih]

/-- What `AddListener` computes. -/
theorem AddListener_eq (s : sharedEventEmitter α) (l : EventListener α) :
    s.AddListener l =
      .ok (if l = none ∨ l ∈ s.listeners then (false, s) else (true, ⟨s.listeners ++ [l]⟩)) := by
  unfold sharedEventEmitter.AddListener
  by_cases h1 : l = none
  · simp [h1]
  · by_cases h2 : l ∈ s.listeners
    · have := (registered_iff l s.listeners).2 h2
      simp [h1, h2, this]
    · have h3 : AddListener.registered l s.listeners = false := by
        cases h : AddListener.registered l s.listeners with
        | false => rfl
        | true => exact absurd ((registered_iff l s.listeners).1 h) h2
      have h4 : ¬ ((s.listeners.length : Int) + 1 < 0) := by omega
      simp [h1, h2, h3, make, h4]

theorem index_of_lt {β : Type} (xs : List β) (i : Nat) (h : i < xs.length) :
    index xs i = .ok xs[i] := by
  simp [index, List.getElem?_eq_getElem h]

/-- Omitting position `i` is erasing the first occurrence of the entry at `i`
when that entry does not occur before `i`. -/
theorem take_append_drop_succ_eq_erase (xs : List (EventListener α)) (i : Nat)
    (h : i < xs.length) (a : EventListener α) (ha : xs[i] = a) (hfront : a ∉ xs.take i) :
    xs.take i ++ xs.drop (i + 1) = xs.erase a := by
  have hsplit : xs.take i ++ a :: xs.drop (i + 1) = xs := by
    rw [← ha, ← List.drop_eq_getElem_cons h, List.take_append_drop]
  have herase : (xs.take i ++ a :: xs.drop (i + 1)).erase a = xs.take i ++ xs.drop (i + 1) := by
    rw [List.erase_append_right _ hfront, List.erase_cons_head]
  rw [← herase, hsplit]

/-- What the loop of `RemoveListener` computes once the entries before `i` have
been found different from `l`. -/
theorem RemoveListener_loop_eq (s : sharedEventEmitter α) (l : EventListener α) :
    ∀ (remaining i : Nat), i + remaining = s.listeners.length → l ∉ s.listeners.take i →
      RemoveListener.loop s l i remaining =
        .ok (if l ∈ s.listeners then (true, ⟨s.listeners.erase l⟩) else (false, s)) := by
  intro remaining
  induction remaining with
  | zero =>
    intro i hi hfront
    have hi2 : i = s.listeners.length := by omega
    subst hi2
    rw [List.take_length] at hfront
    simp [RemoveListener.loop, hfront]
  | succ n ih =>
    intro i hi hfront
    have hlt : i < s.listeners.length := by omega
    unfold RemoveListener.loop
    rw [index_of_lt _ _ hlt]
    by_cases hx : s.listeners[i] = l
    · have hmem : l ∈ s.listeners := hx ▸ List.getElem_mem hlt
      have hcap : ¬ ((s.listeners.length : Int) - 1 < 0) := by omega
      have hle : i ≤ s.listeners.length := by omega
      have hle2 : i + 1 ≤ s.listeners.length := by omega
      have herase := take_append_drop_succ_eq_erase s.listeners i hlt l hx hfront
      simp [hx, hmem, make, hcap, sliceTo, sliceFrom, hle, hle2, herase]
    · have hfront2 : l ∉ s.listeners.take (i + 1) := by
        rw [List.take_succ, List.getElem?_eq_getElem hlt]
        simp only [Option.toList, List.mem_append, List.mem_singleton, not_or]
        exact ⟨hfront, fun e => hx e.symm⟩
      simp only [hx, if_false]
      exact ih (i + 1) (by omega) hfront2

/-- What `RemoveListener` computes. -/
theorem RemoveListener_eq (s : sharedEventEmitter α) (l : EventListener α) :
    s.RemoveListener l =
      .ok (if l ∈ s.listeners then (true, ⟨s.listeners.erase l⟩) else (false, s)) := by
  unfold sharedEventEmitter.RemoveListener
  exact RemoveListener_loop_eq s l s.listeners.length 0 (by omega) (by simp)

/-- One call never panics, and what it leaves is one of two sequences. -/
theorem Call.apply_ok (c : Call α) (s : sharedEventEmitter α) :
    ∃ b s1, c.apply s = .ok (b, s1) := by
  cases c with
  | add l => exact ⟨_, _, by simp only [Call.apply]; rw [AddListener_eq]⟩
  | remove l => exact ⟨_, _, by simp only [Call.apply]; rw [RemoveListener_eq]⟩

/-- The effect of one call on the listener sequence. -/
theorem Call.apply_listeners (c : Call α) (s s1 : sharedEventEmitter α) (b : Bool)
    (h : c.apply s = .ok (b, s1)) :
    match c with
    | .add l =>
      (b = false ∧ s1 = s ∧ (l = none ∨ l ∈ s.listeners)) ∨
      (b = true ∧ s1.listeners = s.listeners ++ [l] ∧ l ≠ none ∧ l ∉ s.listeners)
    | .remove l =>
      (b = false ∧ s1 = s ∧ l ∉ s.listeners) ∨
      (b = true ∧ s1.listeners = s.listeners.erase l ∧ l ∈ s.listeners) := by
  cases c with
  | add l =>
    simp only [Call.apply] at h
    rw [AddListener_eq] at h
    by_cases hc : l = none ∨ l ∈ s.listeners
    · rw [if_pos hc] at h
      injection h with h
      injection h with hb hs
      exact Or.inl ⟨hb.symm, hs.symm, hc⟩
    · rw [if_neg hc] at h
      injection h with h
      injection h with hb hs
      rw [not_or] at hc
      exact Or.inr ⟨hb.symm, by rw [← hs], hc.1, hc.2⟩
  | remove l =>
    simp only [Call.apply] at h
    rw [RemoveListener_eq] at h
    by_cases hc : l ∈ s.listeners
    · rw [if_pos hc] at h
      injection h with h
      injection h with hb hs
      exact Or.inr ⟨hb.symm, by rw [← hs], hc⟩
    · rw [if_neg hc] at h
      injection h with h
      injection h with hb hs
      exact Or.inl ⟨hb.symm, hs.symm, hc⟩

/-- Unfolding `runCalls` at a non-empty list of calls. -/
theorem runCalls_cons (c : Call α) (cs : List (Call α)) (s s2 : sharedEventEmitter α)
    (bs : List Bool) (h : runCalls (c :: cs) s = .ok (bs, s2)) :
    ∃ b s1 bs1, c.apply s = .ok (b, s1) ∧ runCalls cs s1 = .ok (bs1, s2) ∧ bs = b :: bs1 := by
  unfold runCalls at h
  cases hc : c.apply s with
  | error p => simp only [hc] at h; cases h
  | ok r =>
    obtain ⟨b, s1⟩ := r
    simp only [hc] at h
    cases hr : runCalls cs s1 with
    | error p => simp only [hr] at h; cases h
    | ok r2 =>
      obtain ⟨bs1, s3⟩ := r2
      simp only [hr] at h
      injection h with h
      injection h with h1 h2
      exact ⟨b, s1, bs1, rfl, h2 ▸ hr, h1.symm⟩

/-- No sequence of calls panics. -/
theorem runCalls_ok (cs : List (Call α)) :
    ∀ s : sharedEventEmitter α, ∃ bs s2, runCalls cs s = .ok (bs, s2) := by
  induction cs with
  | nil => intro s; exact ⟨[], s, rfl⟩
  | cons c cs ih =>
    intro s
    obtain ⟨b, s1, h1⟩ := Call.apply_ok c s
    obtain ⟨bs, s2, h2⟩ := ih s1
    exact ⟨b :: bs, s2, by simp [runCalls, h1, h2]⟩

/-- A predicate kept by every call is kept by every sequence of calls. -/
theorem runCalls_preserves (P : sharedEventEmitter α → Prop)
    (hstep : ∀ (c : Call α) (s s1 : sharedEventEmitter α) (b : Bool),
      P s → c.apply s = .ok (b, s1) → P s1) :
    ∀ (cs : List (Call α)) (s s2 : sharedEventEmitter α) (bs : List Bool),
      P s → runCalls cs s = .ok (bs, s2) → P s2 := by
  intro cs
  induction cs with
  | nil =>
    intro s s2 bs hP h
    simp only [runCalls] at h
    injection h with h
    injection h with _ h2
    exact h2 ▸ hP
  | cons c cs ih =>
    intro s s2 bs hP h
    obtain ⟨b, s1, bs1, h1, h2, _⟩ := runCalls_cons c cs s s2 bs h
    exact ih s1 s2 bs1 (hstep c s s1 b hP h1) h2

theorem nodup_step (c : Call α) (s s1 : sharedEventEmitter α) (b : Bool)
    (hP : s.listeners.Nodup) (h : c.apply s = .ok (b, s1)) : s1.listeners.Nodup := by
  have hl := Call.apply_listeners c s s1 b h
  cases c with
  | add l =>
    rcases hl with ⟨_, hs, _⟩ | ⟨_, hs, _, hnot⟩
    · rw [hs]; exact hP
    · rw [hs]
      exact List.nodup_append.2 ⟨hP, List.nodup_singleton l, by
        intro a ha hb
        rw [List.mem_singleton] at hb
        exact hnot (hb ▸ ha)⟩
  | remove l =>
    rcases hl with ⟨_, hs, _⟩ | ⟨_, hs, _⟩
    · rw [hs]; exact hP
    · rw [hs]; exact hP.erase l

theorem nonnil_step (c : Call α) (s s1 : sharedEventEmitter α) (b : Bool)
    (hP : none ∉ s.listeners) (h : c.apply s = .ok (b, s1)) : none ∉ s1.listeners := by
  have hl := Call.apply_listeners c s s1 b h
  cases c with
  | add l =>
    rcases hl with ⟨_, hs, _⟩ | ⟨_, hs, hne, _⟩
    · rw [hs]; exact hP
    · rw [hs]
      intro hmem
      rcases List.mem_append.1 hmem with h1 | h1
      · exact hP h1
      · rw [List.mem_singleton] at h1
        exact hne h1.symm
  | remove l =>
    rcases hl with ⟨_, hs, _⟩ | ⟨_, hs, _⟩
    · rw [hs]; exact hP
    · rw [hs]; exact fun hmem => hP (List.mem_of_mem_erase hmem)

theorem Inv_step (c : Call α) (s s1 : sharedEventEmitter α) (b : Bool)
    (hP : Inv s) (h : c.apply s = .ok (b, s1)) : Inv s1 :=
  ⟨nodup_step c s s1 b hP.1 h, nonnil_step c s s1 b hP.2 h⟩

theorem Inv_of_Reachable (s : sharedEventEmitter α) (h : Reachable s) : Inv s := by
  obtain ⟨cs, bs, hrun⟩ := h
  exact runCalls_preserves Inv Inv_step cs _ s bs
    ⟨List.nodup_nil, by simp [sharedEventEmitter.zero]⟩ hrun

/-- While no call is `AddListener(o)`, an absent `o` stays absent and every
`RemoveListener(o)` among the calls returns false. -/
theorem runCalls_absent (o : EventListener α) :
    ∀ (cs : List (Call α)) (s s2 : sharedEventEmitter α) (bs : List Bool),
      Call.add o ∉ cs → o ∉ s.listeners → runCalls cs s = .ok (bs, s2) →
      o ∉ s2.listeners ∧ ∀ p ∈ cs.zip bs, p.1 = Call.remove o → p.2 = false := by
  intro cs
  induction cs with
  | nil =>
    intro s s2 bs _ habs h
    simp only [runCalls] at h
    injection h with h
    injection h with _ h2
    exact ⟨h2 ▸ habs, by simp⟩
  | cons c cs ih =>
    intro s s2 bs hno habs h
    obtain ⟨b, s1, bs1, h1, h2, hbs⟩ := runCalls_cons c cs s s2 bs h
    have hno1 : Call.add o ∉ cs := fun hm => hno (List.mem_cons_of_mem _ hm)
    have hc : c ≠ Call.add o := fun e => hno (e ▸ List.mem_cons_self _ _)
    have hl := Call.apply_listeners c s s1 b h1
    have step : o ∉ s1.listeners ∧ (c = Call.remove o → b = false) := by
      cases c with
      | add l =>
        have hne : o ≠ l := fun e => hc (by rw [e])
        refine ⟨?_, fun e => by cases e⟩
        rcases hl with ⟨_, hs, _⟩ | ⟨_, hs, _, _⟩
        · rw [hs]; exact habs
        · rw [hs]
          intro hm
          rcases List.mem_append.1 hm with hm | hm
          · exact habs hm
          · exact hne (List.mem_singleton.1 hm)
      | remove l =>
        rcases hl with ⟨hb, hs, _⟩ | ⟨_, hs, hin⟩
        · exact ⟨by rw [hs]; exact habs, fun _ => hb⟩
        · refine ⟨by rw [hs]; exact fun hm => habs (List.mem_of_mem_erase hm), fun e => ?_⟩
          injection e with e
          exact absurd (e ▸ hin) habs
    obtain ⟨hfin, hrest⟩ := ih s1 s2 bs1 hno1 step.1 h2
    refine ⟨hfin, ?_⟩
    intro p hp hrem
    rw [hbs, List.zip_cons_cons] at hp
    rcases List.mem_cons.1 hp with hp | hp
    · rw [hp] at hrem ⊢
      exact step.2 hrem
    · exact hrest p hp hrem

/-- While no call is `RemoveListener(o)`, a registered `o` stays registered. -/
theorem runCalls_present (o : EventListener α) :
    ∀ (cs : List (Call α)) (s s2 : sharedEventEmitter α) (bs : List Bool),
      Call.remove o ∉ cs → o ∈ s.listeners → runCalls cs s = .ok (bs, s2) →
      o ∈ s2.listeners := by
  intro cs
  induction cs with
  | nil =>
    intro s s2 bs _ hin h
    simp only [runCalls] at h
    injection h with h
    injection h with _ h2
    exact h2 ▸ hin
  | cons c cs ih =>
    intro s s2 bs hno hin h
    obtain ⟨b, s1, bs1, h1, h2, _⟩ := runCalls_cons c cs s s2 bs h
    have hno1 : Call.remove o ∉ cs := fun hm => hno (List.mem_cons_of_mem _ hm)
    have hc : c ≠ Call.remove o := fun e => hno (e ▸ List.mem_cons_self _ _)
    have hl := Call.apply_listeners c s s1 b h1
    have step : o ∈ s1.listeners := by
      cases c with
      | add l =>
        rcases hl with ⟨_, hs, _⟩ | ⟨_, hs, _, _⟩
        · rw [hs]; exact hin
        · rw [hs]; exact List.mem_append_left _ hin
      | remove l =>
        have hne : o ≠ l := fun e => hc (by rw [e])
        rcases hl with ⟨_, hs, _⟩ | ⟨_, hs, _⟩
        · rw [hs]; exact hin
        · rw [hs]; exact (List.mem_erase_of_ne hne).2 hin
    exact ih s1 s2 bs1 hno1 step h2

/-- The invariant is kept by every sequence of calls. -/
theorem Inv_runCalls (cs : List (Call α)) (s s2 : sharedEventEmitter α) (bs : List Bool)
    (hP : Inv s) (h : runCalls cs s = .ok (bs, s2)) : Inv s2 :=
  runCalls_preserves Inv Inv_step cs s s2 bs hP h

/-- A handler body never panics. -/
theorem Body.run_ok (body : Body α) :
    ∀ s : sharedEventEmitter α, ∃ s1, body.run s = .ok s1 := by
  induction body with
  | ret => intro s; exact ⟨s, rfl⟩
  | add l k ih =>
    intro s
    obtain ⟨b, s1, h⟩ := Call.apply_ok (Call.add l) s
    simp only [Call.apply] at h
    obtain ⟨s2, h2⟩ := ih b s1
    exact ⟨s2, by simp only [Body.run, h, h2]⟩
  | remove l k ih =>
    intro s
    obtain ⟨b, s1, h⟩ := Call.apply_ok (Call.remove l) s
    simp only [Call.apply] at h
    obtain ⟨s2, h2⟩ := ih b s1
    exact ⟨s2, by simp only [Body.run, h, h2]⟩

/-- The synchronous loop over a snapshot without nil entry does not panic. -/
theorem SyncEventEmitter_loop_ok (handle : α → ε → Body α) (event : ε) :
    ∀ (ls : List (EventListener α)) (sy : SyncEventEmitter α) (log : List (α × ε)),
      none ∉ ls →
      ∃ sy1 log1, SyncEventEmitter.EmitEvent.loop handle event ls sy log = .ok (sy1, log1) := by
  intro ls
  induction ls with
  | nil => intro sy log _; exact ⟨sy, log, rfl⟩
  | cons x xs ih =>
    intro sy log hnil
    cases x with
    | none => exact absurd (List.mem_cons_self _ _) hnil
    | some a =>
      obtain ⟨sy1, h1⟩ := Body.run_ok (handle a event) sy
      obtain ⟨sy2, log2, h2⟩ := ih sy1 (log ++ [(a, event)])
        (fun hm => hnil (List.mem_cons_of_mem _ hm))
      exact ⟨sy2, log2, by simp only [SyncEventEmitter.EmitEvent.loop, h1, h2]⟩

end Lemmas

section AsyncLemmas

variable {α ε : Type}

/-- The asynchronous loop over a snapshot without nil entry does not panic. -/
theorem AsyncEventEmitter_loop_ok (event : ε) :
    ∀ (ls : List (EventListener α)) (tasks : List (α × ε)),
      none ∉ ls → ∃ tasks1, AsyncEventEmitter.EmitEvent.loop event ls tasks = .ok tasks1 := by
  intro ls
  induction ls with
  | nil => intro tasks _; exact ⟨tasks, rfl⟩
  | cons x xs ih =>
    intro tasks hnil
    cases x with
    | none => exact absurd (List.mem_cons_self _ _) hnil
    | some a =>
      obtain ⟨t, h⟩ := ih (tasks ++ [(a, event)]) (fun hm => hnil (List.mem_cons_of_mem _ hm))
      exact ⟨t, by simp only [AsyncEventEmitter.EmitEvent.loop, h]⟩

end AsyncLemmas

section SnapshotLemmas

variable {α ε : Type}

/-- A sequence without nil entry is a sequence of non-nil listeners. -/
theorem exists_map_some (ls : List (EventListener α)) (h : none ∉ ls) :
    ∃ os : List α, ls = os.map some := by
  induction ls with
  | nil => exact ⟨[], rfl⟩
  | cons x xs ih =>
    obtain ⟨os, hos⟩ := ih (fun hm => h (List.mem_cons_of_mem _ hm))
    cases x with
    | none => exact absurd (List.mem_cons_self _ _) h
    | some a => exact ⟨a :: os, by rw [hos]; rfl⟩

/-- The tasks started by the asynchronous loop, over non-nil listeners. -/
theorem AsyncEventEmitter_loop_eq (event : ε) :
    ∀ (os : List α) (tasks : List (α × ε)),
      AsyncEventEmitter.EmitEvent.loop event (os.map some) tasks
        = .ok (tasks ++ os.map (fun a => (a, event))) := by
  intro os
  induction os with
  | nil => intro tasks; simp [AsyncEventEmitter.EmitEvent.loop]
  | cons a os ih =>
    intro tasks
    simp only [List.map_cons, AsyncEventEmitter.EmitEvent.loop]
    rw [ih]
    simp

theorem map_fst_pair (os : List α) (event : ε) :
    (os.map (fun a => (a, event))).map Prod.fst = os := by
  induction os with
  | nil => rfl
  | cons a os ih => simp [ih]

theorem map_some_fst_pair (os : List α) (event : ε) :
    (os.map (fun a => (a, event))).map (fun p => some p.1) = os.map some := by
  induction os with
  | nil => rfl
  | cons a os ih => simp [ih]

/-- The listener sequence of a reachable state lists distinct non-nil listeners. -/
theorem Inv_listeners (s : sharedEventEmitter α) (h : Inv s) :
    ∃ os : List α, s.listeners = os.map some ∧ os.Nodup := by
  obtain ⟨os, hos⟩ := exists_map_some s.listeners h.2
  exact ⟨os, hos, List.Nodup.of_map some (hos ▸ h.1)⟩

/-- What `AsyncEventEmitter.EmitEvent` computes on a state without nil entry. -/
theorem AsyncEventEmitter_EmitEvent_eq (s : AsyncEventEmitter α) (event : ε) (os : List α)
    (hs : s.listeners = os.map some) :
    AsyncEventEmitter.EmitEvent s event = .ok (os.map (fun a => (a, event))) := by
  unfold AsyncEventEmitter.EmitEvent
  rw [hs, AsyncEventEmitter_loop_eq]
  simp

end SnapshotLemmas

section EmitLemmas

variable {α ε : Type} [DecidableEq α]

/-- What the synchronous loop computes over non-nil listeners: every listener of
the snapshot is invoked, in order, and the emitter left is the one the handler
bodies leave when run in that order. -/
theorem SyncEventEmitter_loop_eq (handle : α → ε → Body α) (event : ε) :
    ∀ (os : List α) (sy : SyncEventEmitter α) (log : List (α × ε)),
      ∃ sy1, SyncEventEmitter.EmitEvent.loop handle event (os.map some) sy log
          = .ok (sy1, log ++ os.map (fun a => (a, event))) ∧
        runBodies (os.map (fun a => handle a event)) sy = .ok sy1 := by
  intro os
  induction os with
  | nil => intro sy log; exact ⟨sy, by simp [SyncEventEmitter.EmitEvent.loop], rfl⟩
  | cons a os ih =>
    intro sy log
    obtain ⟨sy1, h1⟩ := Body.run_ok (handle a event) sy
    obtain ⟨sy2, h2, h3⟩ := ih sy1 (log ++ [(a, event)])
    refine ⟨sy2, ?_, ?_⟩
    · simp only [List.map_cons, SyncEventEmitter.EmitEvent.loop, h1, h2]
      simp
    · simp only [List.map_cons, runBodies, h1, h3]

/-- What `SyncEventEmitter.EmitEvent` computes on a state without nil entry. -/
theorem SyncEventEmitter_EmitEvent_eq (handle : α → ε → Body α) (s : SyncEventEmitter α)
    (event : ε) (os : List α) (hs : s.listeners = os.map some) :
    ∃ sy1, SyncEventEmitter.EmitEvent handle s event
        = .ok (sy1, os.map (fun a => (a, event))) ∧
      runBodies (os.map (fun a => handle a event)) s = .ok sy1 := by
  obtain ⟨sy1, h1, h2⟩ := SyncEventEmitter_loop_eq handle event os s []
  refine ⟨sy1, ?_, h2⟩
  unfold SyncEventEmitter.EmitEvent
  rw [hs, h1]
  simp

/-- In a sequence of distinct listeners each one is counted once. -/
theorem count_of_nodup (os : List α) (h : os.Nodup) (a : α) :
    os.count a = if a ∈ os then 1 else 0 := by
  by_cases ha : a ∈ os
  · rw [if_pos ha]; exact List.count_eq_one_of_mem h ha
  · rw [if_neg ha]; exact List.count_eq_zero_of_not_mem ha

/-- How often a listener is invoked when a snapshot of distinct listeners is
served. -/
theorem count_snapshot (os : List α) (h : os.Nodup) (event : ε) (a : α) :
    ((os.map (fun b => (b, event))).map Prod.fst).count a
      = if some a ∈ os.map some then 1 else 0 := by
  rw [map_fst_pair, count_of_nodup os h]
  have hiff : some a ∈ os.map some ↔ a ∈ os := by simp
  by_cases ha : a ∈ os
  · rw [if_pos ha, if_pos (hiff.2 ha)]
  · rw [if_neg ha, if_neg (fun hm => ha (hiff.1 hm))]

/-- Registering distinct non-nil listeners one after the other appends them in
that order, every call returning true. -/
theorem runCalls_adds :
    ∀ (os front : List α), (front ++ os).Nodup →
      runCalls (os.map (fun a => Call.add (some a))) (⟨front.map some⟩ : sharedEventEmitter α)
        = .ok (List.replicate os.length true, ⟨(front ++ os).map some⟩) := by
  intro os
  induction os with
  | nil => intro front _; simp [runCalls]
  | cons a os ih =>
    intro front hnd
    have hnd2 : (front ++ [a] ++ os).Nodup := by simpa using hnd
    have ha : a ∉ front := by
      intro hm
      have := List.nodup_append.1 hnd
      exact this.2.2 hm (List.mem_cons_self _ _)
    have hstep : (⟨front.map some⟩ : sharedEventEmitter α).AddListener (some a)
        = .ok (true, ⟨(front ++ [a]).map some⟩) := by
      rw [AddListener_eq]
      simp [ha]
    have hrest := ih (front ++ [a]) hnd2
    simp only [List.map_cons, runCalls, Call.apply, hstep, hrest, List.length_cons,
      List.replicate_succ]
    simp

/-- Unfolding the run of a body that starts with `AddListener`. -/
theorem Body_run_add (x : EventListener α) (k : Bool → Body α) (s s1 : sharedEventEmitter α)
    (h : (Body.add x k).run s = .ok s1) :
    ∃ b s2, (Call.add x).apply s = .ok (b, s2) ∧ (k b).run s2 = .ok s1 := by
  obtain ⟨b, s2, h2⟩ := Call.apply_ok (Call.add x) s
  refine ⟨b, s2, h2, ?_⟩
  simp only [Call.apply] at h2
  simp only [Body.run] at h
  simp only [h2] at h
  exact h

/-- Unfolding the run of a body that starts with `RemoveListener`. -/
theorem Body_run_remove (x : EventListener α) (k : Bool → Body α)
    (s s1 : sharedEventEmitter α) (h : (Body.remove x k).run s = .ok s1) :
    ∃ b s2, (Call.remove x).apply s = .ok (b, s2) ∧ (k b).run s2 = .ok s1 := by
  obtain ⟨b, s2, h2⟩ := Call.apply_ok (Call.remove x) s
  refine ⟨b, s2, h2, ?_⟩
  simp only [Call.apply] at h2
  simp only [Body.run] at h
  simp only [h2] at h
  exact h

/-- A handler body keeps the registry invariant. -/
theorem Body_run_Inv (body : Body α) :
    ∀ s s1 : sharedEventEmitter α, Inv s → body.run s = .ok s1 → Inv s1 := by
  induction body with
  | ret =>
    intro s s1 hinv h
    simp only [Body.run] at h
    injection h with h
    exact h ▸ hinv
  | add x k ih =>
    intro s s1 hinv h
    obtain ⟨b, s2, h1, h2⟩ := Body_run_add x k s s1 h
    exact ih b s2 s1 (Inv_step _ s s2 b hinv h1) h2
  | remove x k ih =>
    intro s s1 hinv h
    obtain ⟨b, s2, h1, h2⟩ := Body_run_remove x k s s1 h
    exact ih b s2 s1 (Inv_step _ s s2 b hinv h1) h2

/-- A call other than `AddListener(o)` leaves an absent `o` absent. -/
theorem Call_apply_absent (o : EventListener α) (c : Call α) (hc : c ≠ Call.add o)
    (s s1 : sharedEventEmitter α) (b : Bool) (habs : o ∉ s.listeners)
    (h : c.apply s = .ok (b, s1)) : o ∉ s1.listeners := by
  have hrun : runCalls [c] s = .ok ([b], s1) := by simp [runCalls, h]
  have hno : Call.add o ∉ [c] := by
    intro hm
    exact hc (List.mem_singleton.1 hm).symm
  exact (runCalls_absent o [c] s s1 [b] hno habs hrun).1

/-- In a state without duplicates `RemoveListener(l)` leaves `l` absent. -/
theorem remove_apply_absent (l : EventListener α) (s s1 : sharedEventEmitter α) (b : Bool)
    (hinv : Inv s) (h : (Call.remove l).apply s = .ok (b, s1)) : l ∉ s1.listeners := by
  have hl := Call.apply_listeners (Call.remove l) s s1 b h
  rcases hl with ⟨_, hs1, hnot⟩ | ⟨_, hs1, _⟩
  · rw [hs1]; exact hnot
  · rw [hs1]; exact fun hm => ((hinv.1.mem_erase_iff).1 hm).1 rfl

/-- Unfolding `runBodies` at a non-empty list. -/
theorem runBodies_cons (b : Body α) (bs : List (Body α)) (s s1 : sharedEventEmitter α)
    (h : runBodies (b :: bs) s = .ok s1) :
    ∃ s2, b.run s = .ok s2 ∧ runBodies bs s2 = .ok s1 := by
  obtain ⟨s2, h2⟩ := Body.run_ok b s
  exact ⟨s2, h2, by simpa only [runBodies, h2] using h⟩

/-- Handler bodies run in a row keep the registry invariant. -/
theorem runBodies_Inv (bs : List (Body α)) :
    ∀ s s1 : sharedEventEmitter α, Inv s → runBodies bs s = .ok s1 → Inv s1 := by
  induction bs with
  | nil =>
    intro s s1 hinv h
    simp only [runBodies] at h
    injection h with h
    exact h ▸ hinv
  | cons b bs ih =>
    intro s s1 hinv h
    obtain ⟨s2, h1, h2⟩ := runBodies_cons b bs s s1 h
    exact ih s2 s1 (Body_run_Inv b s s2 hinv h1) h2

/-- Calls run in two parts. -/
theorem runCalls_append (xs ys : List (Call α)) :
    ∀ (s s1 s2 : sharedEventEmitter α) (b1 b2 : List Bool),
      runCalls xs s = .ok (b1, s1) → runCalls ys s1 = .ok (b2, s2) →
      runCalls (xs ++ ys) s = .ok (b1 ++ b2, s2) := by
  induction xs with
  | nil =>
    intro s s1 s2 b1 b2 h1 h2
    simp only [runCalls] at h1
    injection h1 with h1
    injection h1 with hb hs
    subst hb hs
    simpa using h2
  | cons c xs ih =>
    intro s s1 s2 b1 b2 h1 h2
    obtain ⟨b, s3, bs, happ, hrest, hb1⟩ := runCalls_cons c xs s s1 b1 h1
    have hrec := ih s3 s1 s2 bs b2 hrest h2
    subst hb1
    rw [List.cons_append, List.cons_append]
    simp only [runCalls, happ, hrec]

/-- The calls a handler body makes, replayed as direct calls, leave the emitter
the body leaves. -/
theorem Body_calls_replay (body : Body α) :
    ∀ s s1 : sharedEventEmitter α, body.run s = .ok s1 →
      ∃ bs, runCalls (body.calls s) s = .ok (bs, s1) := by
  induction body with
  | ret =>
    intro s s1 h
    simp only [Body.run] at h
    injection h with h
    subst h
    exact ⟨[], by simp only [Body.calls, runCalls]⟩
  | add l k ih =>
    intro s s1 h
    obtain ⟨b, s2, h1, h2⟩ := Body_run_add l k s s1 h
    obtain ⟨bs, h3⟩ := ih b s2 s1 h2
    have h4 : s.AddListener l = .ok (b, s2) := h1
    exact ⟨b :: bs, by simp only [Body.calls, h4, runCalls, Call.apply, h3]⟩
  | remove l k ih =>
    intro s s1 h
    obtain ⟨b, s2, h1, h2⟩ := Body_run_remove l k s s1 h
    obtain ⟨bs, h3⟩ := ih b s2 s1 h2
    have h4 : s.RemoveListener l = .ok (b, s2) := h1
    exact ⟨b :: bs, by simp only [Body.calls, h4, runCalls, Call.apply, h3]⟩

/-- The calls the handlers make during a synchronous emission, replayed as
direct calls, leave the emitter the emission leaves. -/
theorem emitCalls_replay (handle : α → ε → Body α) (event : ε) :
    ∀ (os : List α) (sy sy1 : sharedEventEmitter α),
      runBodies (os.map (fun a => handle a event)) sy = .ok sy1 →
      ∃ bs, runCalls (emitCalls handle event (os.map some) sy) sy = .ok (bs, sy1) := by
  intro os
  induction os with
  | nil =>
    intro sy sy1 h
    simp only [List.map_nil, runBodies] at h
    injection h with h
    subst h
    exact ⟨[], by simp only [List.map_nil, emitCalls, runCalls]⟩
  | cons a os ih =>
    intro sy sy1 h
    obtain ⟨s2, h1, h2⟩ := runBodies_cons _ _ sy sy1 h
    obtain ⟨bs1, h3⟩ := Body_calls_replay (handle a event) sy s2 h1
    obtain ⟨bs2, h4⟩ := ih s2 sy1 h2
    refine ⟨bs1 ++ bs2, ?_⟩
    simp only [List.map_cons, emitCalls, h1]
    exact runCalls_append _ _ sy s2 sy1 bs1 bs2 h3 h4

/-- After a `RemoveListener(o)` call followed by calls none of which is
`AddListener(o)`, `o` is absent. -/
theorem runCalls_removed (o : EventListener α) (front back : List (Call α))
    (s s2 : sharedEventEmitter α) (bs : List Bool) (hinv : Inv s)
    (hback : Call.add o ∉ back)
    (h : runCalls (front ++ Call.remove o :: back) s = .ok (bs, s2)) :
    o ∉ s2.listeners := by
  obtain ⟨b1, s1, h1⟩ := runCalls_ok front s
  obtain ⟨b2, s3, h2⟩ := runCalls_ok (Call.remove o :: back) s1
  have h3 := runCalls_append front _ s s1 s3 b1 b2 h1 h2
  rw [h3] at h
  injection h with h
  injection h with _ hs
  subst hs
  have hinv1 := Inv_runCalls front s s1 b1 hinv h1
  obtain ⟨b, s4, bs4, happ, hrest, _⟩ := runCalls_cons _ _ s1 s3 b2 h2
  have habs := remove_apply_absent o s1 s4 b hinv1 happ
  exact (runCalls_absent o back s4 s3 bs4 hback habs hrest).1

/-- While no `AddListener(a)` call is made, directly or by a handler, the
operations run without panic from a state that keeps the invariant, an absent
`a` stays absent and is not invoked. -/
theorem runOps_absent (a : α) :
    ∀ (ops : List (Op α ε)) (s : SyncEventEmitter α) (log : List (α × ε)),
      Inv s → some a ∉ s.listeners → Call.add (some a) ∉ opsCalls ops s →
      ∃ s1 log1, runOps ops s log = .ok (s1, log1) ∧ some a ∉ s1.listeners ∧
        (log1.map Prod.fst).count a = (log.map Prod.fst).count a := by
  intro ops
  induction ops with
  | nil => intro s log _ habs _; exact ⟨s, log, rfl, habs, rfl⟩
  | cons op ops ih =>
    intro s log hinv habs hno
    cases op with
    | call c =>
      obtain ⟨b, s2, h1⟩ := Call.apply_ok c s
      simp only [opsCalls, h1, List.mem_cons, not_or] at hno
      have hc : c ≠ Call.add (some a) := fun e => hno.1 e.symm
      obtain ⟨s1, log1, hrun, habs1, hcount⟩ := ih s2 log (Inv_step c s s2 b hinv h1)
        (Call_apply_absent (some a) c hc s s2 b habs h1) hno.2
      exact ⟨s1, log1, by simp only [runOps, h1, hrun], habs1, hcount⟩
    | emit handle event =>
      obtain ⟨os, hos, hnd⟩ := Inv_listeners s hinv
      obtain ⟨sy1, h1, h2⟩ := SyncEventEmitter_EmitEvent_eq handle s event os hos
      obtain ⟨bs, h3⟩ := emitCalls_replay handle event os s sy1 h2
      simp only [opsCalls, h1, hos, List.mem_append, not_or] at hno
      have hinv1 := runBodies_Inv _ s sy1 hinv h2
      have habs1 := (runCalls_absent (some a) _ s sy1 bs hno.1 habs h3).1
      obtain ⟨s1, log1, hrun, habs2, hcount⟩ :=
        ih sy1 (log ++ os.map (fun c => (c, event))) hinv1 habs1 hno.2
      refine ⟨s1, log1, by simp only [runOps, h1, hrun], habs2, ?_⟩
      rw [hcount, List.map_append, List.count_append, count_snapshot os hnd event a, ← hos,
        if_neg habs]
      rfl

/-- Erasing the first occurrence of `o` does not touch the other entries. -/
theorem filter_ne_erase (o : EventListener α) (xs : List (EventListener α)) :
    (xs.erase o).filter (fun p => decide (p ≠ o)) = xs.filter (fun p => decide (p ≠ o)) := by
  induction xs with
  | nil => rfl
  | cons x xs ih =>
    by_cases hx : x = o
    · subst hx
      simp
    · have hbeq : (x == o) = false := by simpa using hx
      rw [List.erase_cons, hbeq]
      simp only [Bool.false_eq_true, if_false, List.filter_cons, ih]

/-- The size of the registry after a sequence of calls, from the calls that
returned true. -/
theorem runCalls_size :
    ∀ (cs : List (Call α)) (s s2 : sharedEventEmitter α) (bs : List Bool),
      runCalls cs s = .ok (bs, s2) →
      bs.length = cs.length ∧
      s2.listeners.length + removesTrue (cs.zip bs)
        = s.listeners.length + addsTrue (cs.zip bs) := by
  intro cs
  induction cs with
  | nil =>
    intro s s2 bs h
    simp only [runCalls] at h
    injection h with h
    injection h with h1 h2
    subst h1 h2
    simp [addsTrue, removesTrue]
  | cons c cs ih =>
    intro s s2 bs h
    obtain ⟨b, s1, bs1, h1, h2, hbs⟩ := runCalls_cons c cs s s2 bs h
    obtain ⟨hlen, hsize⟩ := ih s1 s2 bs1 h2
    have hl := Call.apply_listeners c s s1 b h1
    subst hbs
    refine ⟨by simp [hlen], ?_⟩
    rw [List.zip_cons_cons]
    cases c with
    | add l =>
      rcases hl with ⟨hb, hs1, _⟩ | ⟨hb, hs1, _, _⟩
      · subst hb
        rw [hs1] at hsize
        simpa [addsTrue, removesTrue] using hsize
      · subst hb
        rw [hs1] at hsize
        simp only [List.length_append, List.length_singleton] at hsize
        simp only [addsTrue, removesTrue]
        omega
    | remove l =>
      rcases hl with ⟨hb, hs1, _⟩ | ⟨hb, hs1, hin⟩
      · subst hb
        rw [hs1] at hsize
        simpa [addsTrue, removesTrue] using hsize
      · subst hb
        rw [hs1, List.length_erase_of_mem hin] at hsize
        have hpos : 0 < s.listeners.length := List.length_pos_of_mem hin
        simp only [addsTrue, removesTrue]
        omega

end EmitLemmas

/-! ## The registry methods on an arbitrary state -/

section Claims

variable {α ε : Type} [DecidableEq α]

/-- C1: on every registry state, `AddListener(nil)` returns false, and the
emitter it leaves is the one it was given: the listener sequence has the same
entries in the same order, and the same length. -/
theorem C1_AddListener_nil (s : sharedEventEmitter α) :
    ∃ s1, s.AddListener none = .ok (false, s1) ∧ s1.listeners = s.listeners ∧
      s1.listeners.length = s.listeners.length := by
  refine ⟨s, ?_, rfl, rfl⟩
  rw [AddListener_eq]
  simp

/-- C2: when `o` is equal to an entry of the listener sequence, `AddListener(o)`
returns false and leaves the listener sequence as it was. -/
theorem C2_AddListener_present (s : sharedEventEmitter α) (o : EventListener α)
    (h : o ∈ s.listeners) :
    ∃ s1, s.AddListener o = .ok (false, s1) ∧ s1.listeners = s.listeners := by
  refine ⟨s, ?_, rfl⟩
  rw [AddListener_eq]
  simp [h]

theorem C2_AddListener_present_witness :
    ∃ s1, (⟨[some 1, some 2]⟩ : sharedEventEmitter Nat).AddListener (some 2) = .ok (false, s1) ∧
      s1.listeners = [some 1, some 2] :=
  C2_AddListener_present ⟨[some 1, some 2]⟩ (some 2) (by decide)

/-- C3: for a non-nil `o` that is not an entry of the listener sequence of `s`,
`AddListener(o)` returns true and the new sequence is the old one followed by
`o`, one entry longer. -/
theorem C3_AddListener_appends (s : sharedEventEmitter α) (o : EventListener α)
    (hnil : o ≠ none) (hnew : o ∉ s.listeners) :
    ∃ s1, s.AddListener o = .ok (true, s1) ∧ s1.listeners = s.listeners ++ [o] ∧
      s1.listeners.length = s.listeners.length + 1 := by
  refine ⟨⟨s.listeners ++ [o]⟩, ?_, rfl, by simp⟩
  rw [AddListener_eq]
  simp [hnil, hnew]

theorem C3_AddListener_appends_witness :
    ∃ s1, (⟨[some 1, some 3]⟩ : sharedEventEmitter Nat).AddListener (some 2) = .ok (true, s1) ∧
      s1.listeners = [some 1, some 3] ++ [some 2] ∧
      s1.listeners.length = [some 1, some 3].length + 1 :=
  C3_AddListener_appends ⟨[some 1, some 3]⟩ (some 2) (by decide) (by decide)

/-- C4 as stated (any observer, any state) fails: with the nil observer on the
empty registry, and with an observer that is already registered, the first of
the two calls returns false. -/
theorem C4_add_twice_counterexample :
    (¬ ∃ s1 s2, (sharedEventEmitter.zero : sharedEventEmitter Nat).AddListener none
          = .ok (true, s1) ∧
        s1.AddListener none = .ok (false, s2) ∧
        s2.listeners.length = (sharedEventEmitter.zero : sharedEventEmitter Nat).listeners.length + 1) ∧
    (¬ ∃ s1 s2, (⟨[some 7]⟩ : sharedEventEmitter Nat).AddListener (some 7) = .ok (true, s1) ∧
        s1.AddListener (some 7) = .ok (false, s2) ∧
        s2.listeners.length = (⟨[some 7]⟩ : sharedEventEmitter Nat).listeners.length + 1) := by
  constructor
  · rintro ⟨s1, s2, h1, _, _⟩
    have h0 : (sharedEventEmitter.zero : sharedEventEmitter Nat).AddListener none
        = .ok (false, sharedEventEmitter.zero) := rfl
    rw [h0] at h1
    simp at h1
  · rintro ⟨s1, s2, h1, _, _⟩
    have h0 : (⟨[some 7]⟩ : sharedEventEmitter Nat).AddListener (some 7)
        = .ok (false, ⟨[some 7]⟩) := rfl
    rw [h0] at h1
    simp at h1

/-- C4, amended: for a non-nil observer `o` that is not registered in `s`, two
successive `AddListener(o)` calls return true then false, and the listener
sequence after the two calls is one entry longer than before them. -/
theorem C4_add_twice (s : sharedEventEmitter α) (o : EventListener α)
    (hnil : o ≠ none) (hnew : o ∉ s.listeners) :
    ∃ s1 s2, s.AddListener o = .ok (true, s1) ∧ s1.AddListener o = .ok (false, s2) ∧
      s2.listeners.length = s.listeners.length + 1 := by
  refine ⟨⟨s.listeners ++ [o]⟩, ⟨s.listeners ++ [o]⟩, ?_, ?_, by simp⟩
  · rw [AddListener_eq]
    simp [hnil, hnew]
  · rw [AddListener_eq]
    simp

theorem C4_add_twice_witness :
    ∃ s1 s2, (⟨[some 1]⟩ : sharedEventEmitter Nat).AddListener (some 2) = .ok (true, s1) ∧
      s1.AddListener (some 2) = .ok (false, s2) ∧
      s2.listeners.length = [some 1].length + 1 :=
  C4_add_twice ⟨[some 1]⟩ (some 2) (by decide) (by decide)

/-- C5: when `o` occurs in the listener sequence of `s`, `RemoveListener(o)`
returns true and the new sequence is the old one without its first entry equal
to `o`: the entries before that position followed by the entries after it, one
entry shorter. -/
theorem C5_RemoveListener_present (s : sharedEventEmitter α) (o : EventListener α)
    (h : o ∈ s.listeners) :
    ∃ front back s1, s.listeners = front ++ o :: back ∧ o ∉ front ∧
      s.RemoveListener o = .ok (true, s1) ∧ s1.listeners = front ++ back ∧
      s1.listeners.length + 1 = s.listeners.length := by
  obtain ⟨front, back, hfront, hsplit, herase⟩ := List.exists_erase_eq h
  refine ⟨front, back, ⟨front ++ back⟩, hsplit, hfront, ?_, rfl, ?_⟩
  · rw [RemoveListener_eq, if_pos h, herase]
  · rw [hsplit]
    simp
    omega

theorem C5_RemoveListener_present_witness :
    ∃ front back s1, [some 1, some 2, some 3, some 2] = front ++ some 2 :: back ∧
      some 2 ∉ front ∧
      (⟨[some 1, some 2, some 3, some 2]⟩ : sharedEventEmitter Nat).RemoveListener (some 2)
        = .ok (true, s1) ∧
      s1.listeners = front ++ back ∧
      s1.listeners.length + 1 = [some 1, some 2, some 3, some 2].length :=
  C5_RemoveListener_present ⟨[some 1, some 2, some 3, some 2]⟩ (some 2) (by decide)

/-- C6: when `o` does not occur in the listener sequence, `RemoveListener(o)`
returns false and leaves the listener sequence as it was. -/
theorem C6_RemoveListener_absent (s : sharedEventEmitter α) (o : EventListener α)
    (h : o ∉ s.listeners) :
    ∃ s1, s.RemoveListener o = .ok (false, s1) ∧ s1.listeners = s.listeners := by
  refine ⟨s, ?_, rfl⟩
  rw [RemoveListener_eq, if_neg h]

theorem C6_RemoveListener_absent_witness :
    ∃ s1, (⟨[some 1, some 2]⟩ : sharedEventEmitter Nat).RemoveListener (some 5)
        = .ok (false, s1) ∧
      s1.listeners = [some 1, some 2] :=
  C6_RemoveListener_absent ⟨[some 1, some 2]⟩ (some 5) (by decide)

/-! ## The registry in its reachable states -/

/-- C7: in a reachable state with `o` registered, `RemoveListener(o)` returns
true; then, after any calls none of which is `AddListener(o)`, every
`RemoveListener(o)` among them has returned false and the next one returns false
too; `AddListener(o)` then returns true, and after any calls none of which is
`RemoveListener(o)`, `RemoveListener(o)` returns true again, once. -/
theorem C7_remove_true_once (s : sharedEventEmitter α) (o : EventListener α)
    (hs : Reachable s) (ho : o ∈ s.listeners) :
    ∃ s1, s.RemoveListener o = .ok (true, s1) ∧
      ∀ cs : List (Call α), Call.add o ∉ cs →
        ∃ bs s2, runCalls cs s1 = .ok (bs, s2) ∧
          (∀ p ∈ cs.zip bs, p.1 = Call.remove o → p.2 = false) ∧
          s2.RemoveListener o = .ok (false, s2) ∧
          ∃ s3, s2.AddListener o = .ok (true, s3) ∧
            ∀ cs2 : List (Call α), Call.remove o ∉ cs2 →
              ∃ bs2 s4 s5, runCalls cs2 s3 = .ok (bs2, s4) ∧
                s4.RemoveListener o = .ok (true, s5) ∧
                s5.RemoveListener o = .ok (false, s5) := by
  have hinv := Inv_of_Reachable s hs
  have hne : o ≠ none := fun e => hinv.2 (e ▸ ho)
  have h1 : s.RemoveListener o = .ok (true, ⟨s.listeners.erase o⟩) := by
    rw [RemoveListener_eq, if_pos ho]
  have hinv1 : Inv (⟨s.listeners.erase o⟩ : sharedEventEmitter α) :=
    Inv_step (Call.remove o) s _ true hinv h1
  have habs1 : o ∉ (⟨s.listeners.erase o⟩ : sharedEventEmitter α).listeners :=
    fun hm => ((hinv.1.mem_erase_iff).1 hm).1 rfl
  refine ⟨_, h1, ?_⟩
  intro cs hcs
  obtain ⟨bs, s2, hrun⟩ := runCalls_ok cs (⟨s.listeners.erase o⟩ : sharedEventEmitter α)
  obtain ⟨habs2, hfalse⟩ := runCalls_absent o cs _ s2 bs hcs habs1 hrun
  have hinv2 : Inv s2 := Inv_runCalls cs _ s2 bs hinv1 hrun
  have h3 : s2.AddListener o = .ok (true, ⟨s2.listeners ++ [o]⟩) := by
    rw [AddListener_eq]
    simp [hne, habs2]
  have hinv3 : Inv (⟨s2.listeners ++ [o]⟩ : sharedEventEmitter α) :=
    Inv_step (Call.add o) s2 _ true hinv2 h3
  refine ⟨bs, s2, hrun, hfalse, by rw [RemoveListener_eq, if_neg habs2], _, h3, ?_⟩
  intro cs2 hcs2
  obtain ⟨bs2, s4, hrun2⟩ := runCalls_ok cs2 (⟨s2.listeners ++ [o]⟩ : sharedEventEmitter α)
  have hin4 : o ∈ s4.listeners :=
    runCalls_present o cs2 _ s4 bs2 hcs2 (List.mem_append_right _ (List.mem_singleton_self o)) hrun2
  have hinv4 : Inv s4 := Inv_runCalls cs2 _ s4 bs2 hinv3 hrun2
  have habs5 : o ∉ (⟨s4.listeners.erase o⟩ : sharedEventEmitter α).listeners :=
    fun hm => ((hinv4.1.mem_erase_iff).1 hm).1 rfl
  refine ⟨bs2, s4, ⟨s4.listeners.erase o⟩, hrun2, ?_, ?_⟩
  · rw [RemoveListener_eq, if_pos hin4]
  · rw [RemoveListener_eq, if_neg habs5]

theorem C7_remove_true_once_witness :
    ∃ s1, (⟨[some 1, some 2]⟩ : sharedEventEmitter Nat).RemoveListener (some 1) = .ok (true, s1) ∧
      ∀ cs : List (Call Nat), Call.add (some 1) ∉ cs →
        ∃ bs s2, runCalls cs s1 = .ok (bs, s2) ∧
          (∀ p ∈ cs.zip bs, p.1 = Call.remove (some 1) → p.2 = false) ∧
          s2.RemoveListener (some 1) = .ok (false, s2) ∧
          ∃ s3, s2.AddListener (some 1) = .ok (true, s3) ∧
            ∀ cs2 : List (Call Nat), Call.remove (some 1) ∉ cs2 →
              ∃ bs2 s4 s5, runCalls cs2 s3 = .ok (bs2, s4) ∧
                s4.RemoveListener (some 1) = .ok (true, s5) ∧
                s5.RemoveListener (some 1) = .ok (false, s5) :=
  C7_remove_true_once ⟨[some 1, some 2]⟩ (some 1)
    ⟨[Call.add (some 1), Call.add (some 2)], [true, true], rfl⟩ (by decide)

/-- C8: in every reachable state (the calls that built it may include
`AddListener(nil)`), `RemoveListener(nil)` returns false and leaves the listener
sequence as it was. -/
theorem C8_RemoveListener_nil (s : sharedEventEmitter α) (hs : Reachable s) :
    ∃ s1, s.RemoveListener none = .ok (false, s1) ∧ s1.listeners = s.listeners := by
  refine ⟨s, ?_, rfl⟩
  rw [RemoveListener_eq, if_neg (Inv_of_Reachable s hs).2]

theorem C8_RemoveListener_nil_witness :
    ∃ s1, (⟨[some 4]⟩ : sharedEventEmitter Nat).RemoveListener none = .ok (false, s1) ∧
      s1.listeners = [some 4] :=
  C8_RemoveListener_nil ⟨[some 4]⟩
    ⟨[Call.add none, Call.add (some 4), Call.remove none], [false, true, false], rfl⟩

/-- C9: the listener sequence of every reachable state has no duplicate entry,
and from any state without duplicates each of `AddListener` and `RemoveListener`,
whatever its argument, returns in a state without duplicates. -/
theorem C9_no_duplicates :
    (∀ s : sharedEventEmitter α, Reachable s → s.listeners.Nodup) ∧
    (∀ (s : sharedEventEmitter α) (l : EventListener α), s.listeners.Nodup →
      ∃ b s1, s.AddListener l = .ok (b, s1) ∧ s1.listeners.Nodup) ∧
    (∀ (s : sharedEventEmitter α) (l : EventListener α), s.listeners.Nodup →
      ∃ b s1, s.RemoveListener l = .ok (b, s1) ∧ s1.listeners.Nodup) := by
  refine ⟨fun s hs => (Inv_of_Reachable s hs).1, ?_, ?_⟩
  · intro s l hP
    obtain ⟨b, s1, h⟩ := Call.apply_ok (Call.add l) s
    exact ⟨b, s1, h, nodup_step (Call.add l) s s1 b hP h⟩
  · intro s l hP
    obtain ⟨b, s1, h⟩ := Call.apply_ok (Call.remove l) s
    exact ⟨b, s1, h, nodup_step (Call.remove l) s s1 b hP h⟩

theorem C9_no_duplicates_witness :
    (⟨[some 2, some 3]⟩ : sharedEventEmitter Nat).listeners.Nodup ∧
    (∃ b s1, (⟨[some 2, some 3]⟩ : sharedEventEmitter Nat).AddListener (some 3) = .ok (b, s1) ∧
      s1.listeners.Nodup) ∧
    (∃ b s1, (⟨[some 2, some 3]⟩ : sharedEventEmitter Nat).RemoveListener (some 2) = .ok (b, s1) ∧
      s1.listeners.Nodup) :=
  ⟨(@C9_no_duplicates Nat _).1 ⟨[some 2, some 3]⟩
      ⟨[Call.add (some 1), Call.add (some 2), Call.remove (some 1), Call.add (some 3),
        Call.add (some 2)], [true, true, true, true, false], rfl⟩,
    (@C9_no_duplicates Nat _).2.1 ⟨[some 2, some 3]⟩ (some 3) (by decide),
    (@C9_no_duplicates Nat _).2.2 ⟨[some 2, some 3]⟩ (some 2) (by decide)⟩

/-- C10: no entry of the listener sequence of a reachable state is nil, so
`EmitEvent` (of either emitter) returns without a nil dereference, whatever the
handlers do to the registry; this holds also in the state left by
`AddListener(nil)`, and on the empty registry `EmitEvent` invokes no handler. -/
theorem C10_no_nil_listener (s : sharedEventEmitter α) (hs : Reachable s)
    (handle : α → ε → Body α) (event : ε) :
    none ∉ s.listeners ∧
    (∃ sy1 log, SyncEventEmitter.EmitEvent handle s event = .ok (sy1, log)) ∧
    (∃ tasks, AsyncEventEmitter.EmitEvent s event = .ok tasks) ∧
    (∃ s1, s.AddListener none = .ok (false, s1) ∧
      (∃ sy1 log, SyncEventEmitter.EmitEvent handle s1 event = .ok (sy1, log)) ∧
      (∃ tasks, AsyncEventEmitter.EmitEvent s1 event = .ok tasks)) ∧
    SyncEventEmitter.EmitEvent handle sharedEventEmitter.zero event
      = .ok (sharedEventEmitter.zero, []) ∧
    AsyncEventEmitter.EmitEvent (sharedEventEmitter.zero : sharedEventEmitter α) event
      = .ok [] := by
  have hnil := (Inv_of_Reachable s hs).2
  have hsync := SyncEventEmitter_loop_ok handle event s.listeners s [] hnil
  have hasync := AsyncEventEmitter_loop_ok event s.listeners [] hnil
  refine ⟨hnil, hsync, hasync, ⟨s, ?_, hsync, hasync⟩, rfl, rfl⟩
  rw [AddListener_eq]
  simp

theorem C10_no_nil_listener_witness :
    none ∉ (⟨[some 1, some 2]⟩ : sharedEventEmitter Nat).listeners ∧
    (∃ sy1 log, SyncEventEmitter.EmitEvent
        (fun a (_ : Unit) => Body.remove (some a) (fun _ => Body.add none (fun _ => Body.ret)))
        ⟨[some 1, some 2]⟩ () = .ok (sy1, log)) ∧
    (∃ tasks, AsyncEventEmitter.EmitEvent
        (⟨[some 1, some 2]⟩ : sharedEventEmitter Nat) () = .ok tasks) ∧
    (∃ s1, (⟨[some 1, some 2]⟩ : sharedEventEmitter Nat).AddListener none = .ok (false, s1) ∧
      (∃ sy1 log, SyncEventEmitter.EmitEvent
        (fun a (_ : Unit) => Body.remove (some a) (fun _ => Body.add none (fun _ => Body.ret)))
        s1 () = .ok (sy1, log)) ∧
      (∃ tasks, AsyncEventEmitter.EmitEvent s1 () = .ok tasks)) ∧
    SyncEventEmitter.EmitEvent
        (fun a (_ : Unit) => Body.remove (some a) (fun _ => Body.add none (fun _ => Body.ret)))
        (sharedEventEmitter.zero : sharedEventEmitter Nat) ()
      = .ok (sharedEventEmitter.zero, []) ∧
    AsyncEventEmitter.EmitEvent (sharedEventEmitter.zero : sharedEventEmitter Nat) ()
      = .ok [] :=
  C10_no_nil_listener ⟨[some 1, some 2]⟩
    (show Reachable (⟨[some 1, some 2]⟩ : sharedEventEmitter Nat) from
      ⟨[Call.add none, Call.add (some 1), Call.add (some 2)], [false, true, true], rfl⟩)
    (fun a (_ : Unit) => Body.remove (some a) (fun _ => Body.add none (fun _ => Body.ret))) ()

/-! ## Emission -/

/-- C11: when distinct non-nil observers `o1, ..., on` are registered in that
order on an empty `SyncEventEmitter`, every registration returns true, and
`EmitEvent(e)` returns after having invoked `HandleEvent(e)` on `o1`, ..., `on`
in that order, each exactly once: its invocations are the listener sequence
paired with `e`, and every handler body has run to its end, one after the
other, when it returns. -/
theorem C11_sync_registration_order (os : List α) (hos : os.Nodup)
    (handle : α → ε → Body α) (e : ε) :
    ∃ sy, runCalls (os.map (fun a => Call.add (some a))) sharedEventEmitter.zero
        = .ok (List.replicate os.length true, sy) ∧
      sy.listeners = os.map some ∧
      ∃ sy1 log, SyncEventEmitter.EmitEvent handle sy e = .ok (sy1, log) ∧
        log = os.map (fun a => (a, e)) ∧
        log.map (fun p => (some p.1, p.2)) = sy.listeners.map (fun l => (l, e)) ∧
        (∀ a ∈ os, (log.map Prod.fst).count a = 1) ∧
        runBodies (os.map (fun a => handle a e)) sy = .ok sy1 := by
  have hreg := runCalls_adds os [] (by simpa using hos)
  simp only [List.map_nil, List.nil_append] at hreg
  obtain ⟨sy1, h1, h2⟩ := SyncEventEmitter_EmitEvent_eq handle ⟨os.map some⟩ e os rfl
  refine ⟨⟨os.map some⟩, hreg, rfl, sy1, _, h1, rfl, ?_, ?_, h2⟩
  · simp
  · intro a ha
    rw [count_snapshot os hos e a]
    simp [ha]

theorem C11_sync_registration_order_witness :
    ∃ sy, runCalls ([1, 2, 3].map (fun a => Call.add (some a)))
          (sharedEventEmitter.zero : sharedEventEmitter Nat)
        = .ok (List.replicate [1, 2, 3].length true, sy) ∧
      sy.listeners = [1, 2, 3].map some ∧
      ∃ sy1 log, SyncEventEmitter.EmitEvent
            (fun a (_ : Unit) => Body.remove (some (a + 1)) (fun _ => Body.ret)) sy ()
          = .ok (sy1, log) ∧
        log = [1, 2, 3].map (fun a => (a, ())) ∧
        log.map (fun p => (some p.1, p.2)) = sy.listeners.map (fun l => (l, ())) ∧
        (∀ a ∈ [1, 2, 3], (log.map Prod.fst).count a = 1) ∧
        runBodies ([1, 2, 3].map
          (fun a => (fun a (_ : Unit) => Body.remove (some (a + 1)) (fun _ => Body.ret)) a ()))
          sy = .ok sy1 :=
  C11_sync_registration_order [1, 2, 3] (by decide)
    (fun a (_ : Unit) => Body.remove (some (a + 1)) (fun _ => Body.ret)) ()

/-- C12: whatever `AddListener` / `RemoveListener` calls the handlers make while
`EmitEvent` is serving the snapshot `S` read at its start, the observers
notified are exactly those of `S`, each once, in the order of `S`, each with the
event: the invocations are those made when the handlers leave the registry
alone.  The calls only show in the emitter left after `EmitEvent`, which is the
one obtained by running the handler bodies in that order. -/
theorem C12_snapshot_isolation (s : SyncEventEmitter α) (hs : Reachable s)
    (handle : α → ε → Body α) (e : ε) :
    ∃ sy1 log, SyncEventEmitter.EmitEvent handle s e = .ok (sy1, log) ∧
      log.map (fun p => some p.1) = s.listeners ∧
      (∀ p ∈ log, p.2 = e) ∧
      (∀ a, (log.map Prod.fst).count a = if some a ∈ s.listeners then 1 else 0) ∧
      SyncEventEmitter.EmitEvent (fun _ _ => Body.ret) s e = .ok (s, log) ∧
      runBodies (log.map (fun p => handle p.1 p.2)) s = .ok sy1 := by
  obtain ⟨os, hos, hnd⟩ := Inv_listeners s (Inv_of_Reachable s hs)
  obtain ⟨sy1, h1, h2⟩ := SyncEventEmitter_EmitEvent_eq handle s e os hos
  obtain ⟨sy0, h3, h4⟩ := SyncEventEmitter_EmitEvent_eq (fun _ _ => Body.ret) s e os hos
  have hsy0 : sy0 = s := by
    have hret : ∀ (bs : List α) (t : sharedEventEmitter α),
        runBodies (bs.map (fun _ => (Body.ret : Body α))) t = .ok t := by
      intro bs
      induction bs with
      | nil => intro t; rfl
      | cons b bs ih => intro t; simp only [List.map_cons, runBodies, Body.run, ih]
    rw [hret os s] at h4
    injection h4 with h4
    exact h4.symm
  refine ⟨sy1, _, h1, ?_, ?_, ?_, hsy0 ▸ h3, ?_⟩
  · rw [map_some_fst_pair, hos]
  · intro p hp
    obtain ⟨a, _, rfl⟩ := List.mem_map.1 hp
    rfl
  · intro a
    rw [count_snapshot os hnd e a, hos]
  · rw [List.map_map]
    exact h2

theorem C12_snapshot_isolation_witness :
    ∃ sy1 log, SyncEventEmitter.EmitEvent
          (fun a (_ : Unit) => Body.remove (some 2) (fun _ => Body.add (some (a + 7))
            (fun _ => Body.ret)))
          (⟨[some 1, some 2]⟩ : SyncEventEmitter Nat) () = .ok (sy1, log) ∧
      log.map (fun p => some p.1) = [some 1, some 2] ∧
      (∀ p ∈ log, p.2 = ()) ∧
      (∀ a, (log.map Prod.fst).count a = if some a ∈ [some 1, some 2] then 1 else 0) ∧
      SyncEventEmitter.EmitEvent (fun _ _ => Body.ret)
          (⟨[some 1, some 2]⟩ : SyncEventEmitter Nat) () = .ok (⟨[some 1, some 2]⟩, log) ∧
      runBodies (log.map (fun p => (fun a (_ : Unit) => Body.remove (some 2)
          (fun _ => Body.add (some (a + 7)) (fun _ => Body.ret))) p.1 p.2))
        (⟨[some 1, some 2]⟩ : SyncEventEmitter Nat) = .ok sy1 :=
  C12_snapshot_isolation ⟨[some 1, some 2]⟩
    (show Reachable (⟨[some 1, some 2]⟩ : sharedEventEmitter Nat) from
      ⟨[Call.add (some 1), Call.add (some 2)], [true, true], rfl⟩)
    (fun a (_ : Unit) => Body.remove (some 2) (fun _ => Body.add (some (a + 7))
      (fun _ => Body.ret))) ()

/-- C13: in a reachable state, after `RemoveListener(l)` has returned, `l` does
not occur in the listener sequence, and the next `EmitEvent(e)` (of either
emitter, whatever the handlers do) invokes `l` zero times and every other
registered listener exactly once.  With two listeners whose handlers leave the
registry alone: register `L1`, `L2`; emit; remove `L1`; emit again: `L1` has
been invoked once in total, `L2` twice. -/
theorem C13_removed_not_invoked (s : sharedEventEmitter α) (hs : Reachable s)
    (l : EventListener α) (handle : α → ε → Body α) (e : ε) :
    (∃ b s1, s.RemoveListener l = .ok (b, s1) ∧ l ∉ s1.listeners ∧
      (∃ sy2 log, SyncEventEmitter.EmitEvent handle s1 e = .ok (sy2, log) ∧
        (∀ a, l = some a → (log.map Prod.fst).count a = 0) ∧
        (∀ p, some p ∈ s.listeners → some p ≠ l → (log.map Prod.fst).count p = 1)) ∧
      (∃ tasks, AsyncEventEmitter.EmitEvent s1 e = .ok tasks ∧
        (∀ a, l = some a → (tasks.map Prod.fst).count a = 0) ∧
        (∀ p, some p ∈ s.listeners → some p ≠ l → (tasks.map Prod.fst).count p = 1))) ∧
    (∀ L1 L2 : α, L1 ≠ L2 →
      ∃ sy log, runOps
          [Op.call (Call.add (some L1)), Op.call (Call.add (some L2)),
            Op.emit (fun _ _ => Body.ret) e,
            Op.call (Call.remove (some L1)),
            Op.emit (fun _ _ => Body.ret) e]
          sharedEventEmitter.zero [] = .ok (sy, log) ∧
        (log.map Prod.fst).count L1 = 1 ∧ (log.map Prod.fst).count L2 = 2) := by
  constructor
  · have hinv := Inv_of_Reachable s hs
    obtain ⟨b, s1, h1⟩ := Call.apply_ok (Call.remove l) s
    have hinv1 : Inv s1 := Inv_step (Call.remove l) s s1 b hinv h1
    have hl := Call.apply_listeners (Call.remove l) s s1 b h1
    simp only [Call.apply] at h1
    have habs : l ∉ s1.listeners := by
      rcases hl with ⟨_, hs1, hnot⟩ | ⟨_, hs1, _⟩
      · rw [hs1]; exact hnot
      · rw [hs1]; exact fun hm => ((hinv.1.mem_erase_iff).1 hm).1 rfl
    have hkeep : ∀ p, some p ∈ s.listeners → some p ≠ l → some p ∈ s1.listeners := by
      intro p hp hne
      rcases hl with ⟨_, hs1, _⟩ | ⟨_, hs1, _⟩
      · rw [hs1]; exact hp
      · rw [hs1]; exact (List.mem_erase_of_ne hne).2 hp
    obtain ⟨os, hos, hnd⟩ := Inv_listeners s1 hinv1
    obtain ⟨sy2, h2, _⟩ := SyncEventEmitter_EmitEvent_eq handle s1 e os hos
    have h3 := AsyncEventEmitter_EmitEvent_eq s1 e os hos
    have hzero : ∀ a, l = some a →
        ((os.map (fun b => (b, e))).map Prod.fst).count a = 0 := by
      intro a hla
      rw [count_snapshot os hnd e a, ← hos, if_neg (hla ▸ habs)]
    have hone : ∀ p, some p ∈ s.listeners → some p ≠ l →
        ((os.map (fun b => (b, e))).map Prod.fst).count p = 1 := by
      intro p hp hne
      rw [count_snapshot os hnd e p, ← hos, if_pos (hkeep p hp hne)]
    exact ⟨b, s1, h1, habs, ⟨sy2, _, h2, hzero, hone⟩, ⟨_, h3, hzero, hone⟩⟩
  · intro L1 L2 hne
    have hne2 : ¬ L2 = L1 := fun h => hne h.symm
    refine ⟨⟨[some L2]⟩, [(L1, e), (L2, e), (L2, e)], ?_, ?_, ?_⟩
    · simp [runOps, Call.apply, AddListener_eq, RemoveListener_eq, sharedEventEmitter.zero,
        SyncEventEmitter.EmitEvent, SyncEventEmitter.EmitEvent.loop, Body.run, hne, hne2]
    · simp [List.count_cons, hne, hne2]
    · simp [List.count_cons, hne, hne2]

theorem C13_removed_not_invoked_witness :
    (∃ b s1, (⟨[some 1, some 2]⟩ : sharedEventEmitter Nat).RemoveListener (some 1)
        = .ok (b, s1) ∧ some 1 ∉ s1.listeners ∧
      (∃ sy2 log, SyncEventEmitter.EmitEvent
          (fun a (_ : Unit) => Body.add (some (a - 1)) (fun _ => Body.ret)) s1 ()
            = .ok (sy2, log) ∧
        (∀ a, some 1 = some a → (log.map Prod.fst).count a = 0) ∧
        (∀ p, some p ∈ [some 1, some 2] → some p ≠ some 1 →
          (log.map Prod.fst).count p = 1)) ∧
      (∃ tasks, AsyncEventEmitter.EmitEvent s1 () = .ok tasks ∧
        (∀ a, some 1 = some a → (tasks.map Prod.fst).count a = 0) ∧
        (∀ p, some p ∈ [some 1, some 2] → some p ≠ some 1 →
          (tasks.map Prod.fst).count p = 1))) ∧
    (∀ L1 L2 : Nat, L1 ≠ L2 →
      ∃ sy log, runOps
          [Op.call (Call.add (some L1)), Op.call (Call.add (some L2)),
            Op.emit (fun _ _ => Body.ret) (),
            Op.call (Call.remove (some L1)),
            Op.emit (fun _ _ => Body.ret) ()]
          sharedEventEmitter.zero [] = .ok (sy, log) ∧
        (log.map Prod.fst).count L1 = 1 ∧ (log.map Prod.fst).count L2 = 2) :=
  C13_removed_not_invoked ⟨[some 1, some 2]⟩
    (show Reachable (⟨[some 1, some 2]⟩ : sharedEventEmitter Nat) from
      ⟨[Call.add (some 1), Call.add (some 2)], [true, true], rfl⟩)
    (some 1) (fun a (_ : Unit) => Body.add (some (a - 1)) (fun _ => Body.ret)) ()

/-- C15: in a reachable state `AsyncEventEmitter.EmitEvent(e)` starts exactly
one task per entry of the snapshot, the task of an entry being the invocation of
that observer's `HandleEvent` with `e`: the tasks are the snapshot entry by
entry, so a registered observer is scheduled exactly once and an observer that
is not in the snapshot is not scheduled. -/
theorem C15_async_one_task_each (s : AsyncEventEmitter α) (hs : Reachable s) (e : ε) :
    ∃ tasks, AsyncEventEmitter.EmitEvent s e = .ok tasks ∧
      tasks.map (fun t => some t.1) = s.listeners ∧
      (∀ t ∈ tasks, t.2 = e) ∧
      tasks.length = s.listeners.length ∧
      (∀ a, (tasks.map Prod.fst).count a = if some a ∈ s.listeners then 1 else 0) := by
  obtain ⟨os, hos, hnd⟩ := Inv_listeners s (Inv_of_Reachable s hs)
  refine ⟨_, AsyncEventEmitter_EmitEvent_eq s e os hos, ?_, ?_, ?_, ?_⟩
  · rw [map_some_fst_pair, hos]
  · intro t ht
    obtain ⟨a, _, rfl⟩ := List.mem_map.1 ht
    rfl
  · rw [hos]; simp
  · intro a
    rw [count_snapshot os hnd e a, hos]

theorem C15_async_one_task_each_witness :
    ∃ tasks, AsyncEventEmitter.EmitEvent (⟨[some 5, some 3]⟩ : AsyncEventEmitter Nat) ()
        = .ok tasks ∧
      tasks.map (fun t => some t.1) = [some 5, some 3] ∧
      (∀ t ∈ tasks, t.2 = ()) ∧
      tasks.length = [some 5, some 3].length ∧
      (∀ a, (tasks.map Prod.fst).count a = if some a ∈ [some 5, some 3] then 1 else 0) :=
  C15_async_one_task_each ⟨[some 5, some 3]⟩
    (show Reachable (⟨[some 5, some 3]⟩ : sharedEventEmitter Nat) from
      ⟨[Call.add (some 5), Call.add (some 3)], [true, true], rfl⟩) ()

/-- C14 as stated fails when `l` is registered again: with listeners `1`, `2`
where the handler of `1` calls `RemoveListener(1)` and the handler of `2` calls
`AddListener(1)`, listener `1` is registered when `EmitEvent` returns, the next
`EmitEvent` invokes it again, and its total invocation count is 2. -/
theorem C14_self_removal_counterexample :
    Reachable (⟨[some 1, some 2]⟩ : sharedEventEmitter Nat) ∧
    emitCalls
        (fun a (_ : Unit) =>
          if a = 1 then Body.remove (some 1) (fun _ => Body.ret)
          else Body.add (some 1) (fun _ => Body.ret))
        () [some 1, some 2] (⟨[some 1, some 2]⟩ : SyncEventEmitter Nat)
      = [Call.remove (some 1), Call.add (some 1)] ∧
    ∃ sy1 log, SyncEventEmitter.EmitEvent
        (fun a (_ : Unit) =>
          if a = 1 then Body.remove (some 1) (fun _ => Body.ret)
          else Body.add (some 1) (fun _ => Body.ret))
        (⟨[some 1, some 2]⟩ : SyncEventEmitter Nat) () = .ok (sy1, log) ∧
      some 1 ∈ sy1.listeners ∧
      ∃ sy2 log2, SyncEventEmitter.EmitEvent
          (fun a (_ : Unit) =>
            if a = 1 then Body.remove (some 1) (fun _ => Body.ret)
            else Body.add (some 1) (fun _ => Body.ret))
          sy1 () = .ok (sy2, log2) ∧
        (log2.map Prod.fst).count 1 = 1 ∧
        ((log ++ log2).map Prod.fst).count 1 = 2 :=
  ⟨⟨[Call.add (some 1), Call.add (some 2)], [true, true], rfl⟩, rfl,
    ⟨[some 2, some 1]⟩, [(1, ()), (2, ())], rfl, by decide,
    ⟨[some 2]⟩, [(2, ()), (1, ())], rfl, by decide, by decide⟩

/-- C14, amended: handlers act on the emitter through `AddListener` and
`RemoveListener` calls only (none emits from inside an emission).  Let `l` be
registered in a reachable state, and let the calls made by the handlers during
`EmitEvent`, in the order they are made, contain a `RemoveListener(l)` call (as
when the handler of `l` removes `l`) after which no `AddListener(l)` call is
made in that emission; calls made before it are not constrained.  Then
`EmitEvent` returns normally having invoked every observer of the snapshot
exactly once, `l` included, and `l` is absent from the registry when it returns.
After any later operations (direct calls and emissions) during which no
`AddListener(l)` call is made, by a direct call or by a handler, `l` is still
absent and its total invocation count is still 1. -/
theorem C14_self_removal (s : SyncEventEmitter α) (hs : Reachable s) (a : α)
    (ha : some a ∈ s.listeners) (handle : α → ε → Body α) (e : ε)
    (front back : List (Call α))
    (hcalls : emitCalls handle e s.listeners s = front ++ Call.remove (some a) :: back)
    (hback : Call.add (some a) ∉ back) :
    ∃ sy1 log, SyncEventEmitter.EmitEvent handle s e = .ok (sy1, log) ∧
      log.map (fun p => some p.1) = s.listeners ∧
      (∀ p ∈ log, p.2 = e) ∧
      (∀ b, some b ∈ s.listeners → (log.map Prod.fst).count b = 1) ∧
      some a ∉ sy1.listeners ∧
      ∀ ops : List (Op α ε), Call.add (some a) ∉ opsCalls ops sy1 →
        ∃ sy2 log2, runOps ops sy1 log = .ok (sy2, log2) ∧
          (log2.map Prod.fst).count a = 1 ∧ some a ∉ sy2.listeners := by
  have hinv := Inv_of_Reachable s hs
  obtain ⟨os, hos, hnd⟩ := Inv_listeners s hinv
  obtain ⟨sy1, h1, h2⟩ := SyncEventEmitter_EmitEvent_eq handle s e os hos
  obtain ⟨bs, h3⟩ := emitCalls_replay handle e os s sy1 h2
  rw [← hos, hcalls] at h3
  have hcount : ∀ b, some b ∈ s.listeners →
      ((os.map (fun c => (c, e))).map Prod.fst).count b = 1 := by
    intro b hb
    rw [count_snapshot os hnd e b, ← hos, if_pos hb]
  have hinv1 := runBodies_Inv _ s sy1 hinv h2
  have habs1 : some a ∉ sy1.listeners :=
    runCalls_removed (some a) front back s sy1 bs hinv hback h3
  refine ⟨sy1, _, h1, ?_, ?_, hcount, habs1, ?_⟩
  · rw [map_some_fst_pair, hos]
  · intro p hp
    obtain ⟨c, _, rfl⟩ := List.mem_map.1 hp
    rfl
  · intro ops hops
    obtain ⟨sy2, log2, hrun, habs2, hc2⟩ :=
      runOps_absent a ops sy1 (os.map (fun c => (c, e))) hinv1 habs1 hops
    exact ⟨sy2, log2, hrun, by rw [hc2]; exact hcount a ha, habs2⟩

theorem C14_self_removal_witness :
    ∃ sy1 log, SyncEventEmitter.EmitEvent
        (fun a (_ : Unit) => Body.add (some a) (fun _ => Body.remove (some a)
          (fun _ => Body.ret)))
        (⟨[some 1, some 2]⟩ : SyncEventEmitter Nat) () = .ok (sy1, log) ∧
      log.map (fun p => some p.1) = [some 1, some 2] ∧
      (∀ p ∈ log, p.2 = ()) ∧
      (∀ b, some b ∈ [some 1, some 2] → (log.map Prod.fst).count b = 1) ∧
      some 1 ∉ sy1.listeners ∧
      ∀ ops : List (Op Nat Unit), Call.add (some 1) ∉ opsCalls ops sy1 →
        ∃ sy2 log2, runOps ops sy1 log = .ok (sy2, log2) ∧
          (log2.map Prod.fst).count 1 = 1 ∧ some 1 ∉ sy2.listeners :=
  C14_self_removal ⟨[some 1, some 2]⟩
    (show Reachable (⟨[some 1, some 2]⟩ : sharedEventEmitter Nat) from
      ⟨[Call.add (some 1), Call.add (some 2)], [true, true], rfl⟩)
    1 (by decide)
    (fun a (_ : Unit) => Body.add (some a) (fun _ => Body.remove (some a)
      (fun _ => Body.ret))) ()
    [Call.add (some 1)] [Call.add (some 2), Call.remove (some 2)] rfl (by decide)

/-! ## Membership, totality and accounting -/

/-- C17: in a reachable state and for a non-nil `o`: `o` is registered after
`AddListener(o)` and absent after `RemoveListener(o)`, whatever it was before,
and the call leaves the sequence as it was when `o` was already so; every other
observer is registered after the call exactly when it was before, and the
other observers stay in the same relative order. -/
theorem C17_membership_two_states (s : sharedEventEmitter α) (hs : Reachable s)
    (o : EventListener α) (ho : o ≠ none) :
    (∃ b s1, s.AddListener o = .ok (b, s1) ∧ o ∈ s1.listeners ∧
      (o ∈ s.listeners → s1.listeners = s.listeners) ∧
      (∀ p, p ≠ o → (p ∈ s1.listeners ↔ p ∈ s.listeners)) ∧
      s1.listeners.filter (fun p => decide (p ≠ o))
        = s.listeners.filter (fun p => decide (p ≠ o))) ∧
    (∃ b s1, s.RemoveListener o = .ok (b, s1) ∧ o ∉ s1.listeners ∧
      (o ∉ s.listeners → s1.listeners = s.listeners) ∧
      (∀ p, p ≠ o → (p ∈ s1.listeners ↔ p ∈ s.listeners)) ∧
      s1.listeners.filter (fun p => decide (p ≠ o))
        = s.listeners.filter (fun p => decide (p ≠ o))) := by
  have hinv := Inv_of_Reachable s hs
  constructor
  · obtain ⟨b, s1, h1⟩ := Call.apply_ok (Call.add o) s
    have hl := Call.apply_listeners (Call.add o) s s1 b h1
    simp only [Call.apply] at h1
    refine ⟨b, s1, h1, ?_⟩
    rcases hl with ⟨_, hs1, hor⟩ | ⟨_, hs1, _, hnot⟩
    · rw [hs1]
      rcases hor with hnil | hin
      · exact absurd hnil ho
      · exact ⟨hin, fun _ => rfl, fun _ _ => Iff.rfl, rfl⟩
    · rw [hs1]
      refine ⟨by simp, fun hin => absurd hin hnot, fun p hp => ?_, by simp⟩
      simp [hp]
  · obtain ⟨b, s1, h1⟩ := Call.apply_ok (Call.remove o) s
    have hl := Call.apply_listeners (Call.remove o) s s1 b h1
    have habs := remove_apply_absent o s s1 b hinv h1
    simp only [Call.apply] at h1
    refine ⟨b, s1, h1, habs, ?_⟩
    rcases hl with ⟨_, hs1, _⟩ | ⟨_, hs1, hin⟩
    · rw [hs1]
      exact ⟨fun _ => rfl, fun _ _ => Iff.rfl, rfl⟩
    · rw [hs1]
      exact ⟨fun hnot => absurd hin hnot, fun p hp => List.mem_erase_of_ne hp,
        filter_ne_erase o s.listeners⟩

theorem C17_membership_two_states_witness :
    (∃ b s1, (⟨[some 1, some 2, some 3]⟩ : sharedEventEmitter Nat).AddListener (some 2)
        = .ok (b, s1) ∧ some 2 ∈ s1.listeners ∧
      (some 2 ∈ [some 1, some 2, some 3] → s1.listeners = [some 1, some 2, some 3]) ∧
      (∀ p, p ≠ some 2 → (p ∈ s1.listeners ↔ p ∈ [some 1, some 2, some 3])) ∧
      s1.listeners.filter (fun p => decide (p ≠ some 2))
        = [some 1, some 2, some 3].filter (fun p => decide (p ≠ some 2))) ∧
    (∃ b s1, (⟨[some 1, some 2, some 3]⟩ : sharedEventEmitter Nat).RemoveListener (some 2)
        = .ok (b, s1) ∧ some 2 ∉ s1.listeners ∧
      (some 2 ∉ [some 1, some 2, some 3] → s1.listeners = [some 1, some 2, some 3]) ∧
      (∀ p, p ≠ some 2 → (p ∈ s1.listeners ↔ p ∈ [some 1, some 2, some 3])) ∧
      s1.listeners.filter (fun p => decide (p ≠ some 2))
        = [some 1, some 2, some 3].filter (fun p => decide (p ≠ some 2))) :=
  C17_membership_two_states ⟨[some 1, some 2, some 3]⟩
    (show Reachable (⟨[some 1, some 2, some 3]⟩ : sharedEventEmitter Nat) from
      ⟨[Call.add (some 1), Call.add (some 2), Call.add (some 3)], [true, true, true], rfl⟩)
    (some 2) (by decide)

/-- C18: on every registry state and for every argument, `AddListener` and
`RemoveListener` return a boolean without panic.  In `AddListener` the capacity
asked of `make` is accepted; in `RemoveListener` every index the loop reads is
in range, and when the entry at index `i` equals the argument the capacity
`len - 1` is not negative and both slice expressions `[:i]` and `[i+1:]` are
within the length. -/
theorem C18_never_fail (s : sharedEventEmitter α) (l : EventListener α) :
    (∃ b s1, s.AddListener l = .ok (b, s1)) ∧
    (∃ b s1, s.RemoveListener l = .ok (b, s1)) ∧
    (make ((s.listeners.length : Int) + 1) : Except Panic (List (EventListener α))) = .ok [] ∧
    (∀ i, i < s.listeners.length → ∃ x, index s.listeners i = .ok x) ∧
    (∀ i, s.listeners[i]? = some l →
      index s.listeners i = .ok l ∧
      (0 : Int) ≤ (s.listeners.length : Int) - 1 ∧
      (make ((s.listeners.length : Int) - 1) : Except Panic (List (EventListener α))) = .ok [] ∧
      i ≤ s.listeners.length ∧ i + 1 ≤ s.listeners.length ∧
      sliceTo s.listeners i = .ok (s.listeners.take i) ∧
      sliceFrom s.listeners (i + 1) = .ok (s.listeners.drop (i + 1))) := by
  refine ⟨⟨_, _, AddListener_eq s l⟩, ⟨_, _, RemoveListener_eq s l⟩, ?_, ?_, ?_⟩
  · have h : ¬ ((s.listeners.length : Int) + 1 < 0) := by omega
    simp [make, h]
  · intro i hi
    exact ⟨_, index_of_lt s.listeners i hi⟩
  · intro i hi
    have hlt : i < s.listeners.length := by
      by_contra hge
      rw [List.getElem?_eq_none (by omega)] at hi
      cases hi
    have hcap : ¬ ((s.listeners.length : Int) - 1 < 0) := by omega
    have hle : i ≤ s.listeners.length := by omega
    have hle2 : i + 1 ≤ s.listeners.length := by omega
    refine ⟨by simp [index, hi], by omega, by simp [make, hcap], hle, hle2, ?_, ?_⟩
    · simp [sliceTo, hle]
    · simp [sliceFrom, hle2]

theorem C18_never_fail_witness :
    index [some 1, some 2, some 3] 1 = .ok (some 2) ∧
    (0 : Int) ≤ (([some 1, some 2, some 3] : List (EventListener Nat)).length : Int) - 1 ∧
    (make ((([some 1, some 2, some 3] : List (EventListener Nat)).length : Int) - 1)
      : Except Panic (List (EventListener Nat))) = .ok [] ∧
    1 ≤ ([some 1, some 2, some 3] : List (EventListener Nat)).length ∧
    1 + 1 ≤ ([some 1, some 2, some 3] : List (EventListener Nat)).length ∧
    sliceTo [some 1, some 2, some 3] 1 = .ok ([some 1, some 2, some 3].take 1) ∧
    sliceFrom [some 1, some 2, some 3] (1 + 1) = .ok ([some 1, some 2, some 3].drop (1 + 1)) :=
  (C18_never_fail (⟨[some 1, some 2, some 3]⟩ : sharedEventEmitter Nat) (some 2)).2.2.2.2 1 rfl

/-- C19: for a non-nil `o` that is not in `s`, `AddListener(o)` then
`RemoveListener(o)` return true and true and the listener sequence is `s`
again.  For `o` registered in a reachable `s`, `RemoveListener(o)` then
`AddListener(o)` return true and true and the listener sequence is `s` with `o`
moved to the last position, which is `s` itself only when `o` was last. -/
theorem C19_round_trip :
    (∀ (s : sharedEventEmitter α) (o : EventListener α), o ≠ none → o ∉ s.listeners →
      ∃ s1 s2, s.AddListener o = .ok (true, s1) ∧ s1.RemoveListener o = .ok (true, s2) ∧
        s2.listeners = s.listeners) ∧
    (∀ (s : sharedEventEmitter α) (o : EventListener α), Reachable s → o ∈ s.listeners →
      ∃ s1 s2, s.RemoveListener o = .ok (true, s1) ∧ s1.AddListener o = .ok (true, s2) ∧
        ∃ front back, s.listeners = front ++ o :: back ∧
          s2.listeners = front ++ back ++ [o] ∧
          (s2.listeners = s.listeners ↔ back = [])) := by
  constructor
  · intro s o hnil hnew
    refine ⟨⟨s.listeners ++ [o]⟩, ⟨s.listeners⟩, ?_, ?_, rfl⟩
    · rw [AddListener_eq]
      simp [hnil, hnew]
    · rw [RemoveListener_eq]
      have herase : (s.listeners ++ [o]).erase o = s.listeners := by
        rw [List.erase_append_right _ hnew]
        simp
      simp [herase]
  · intro s o hs hin
    have hinv := Inv_of_Reachable s hs
    have hnil : o ≠ none := fun e => hinv.2 (e ▸ hin)
    obtain ⟨front, back, hfront, hsplit, herase⟩ := List.exists_erase_eq hin
    have hnd : (front ++ o :: back).Nodup := hsplit ▸ hinv.1
    have hback : o ∉ back := by
      have h1 := (List.nodup_append.1 hnd).2.1
      exact (List.nodup_cons.1 h1).1
    have hnot : o ∉ front ++ back := by
      intro hm
      rcases List.mem_append.1 hm with h | h
      · exact hfront h
      · exact hback h
    refine ⟨⟨front ++ back⟩, ⟨front ++ back ++ [o]⟩, ?_, ?_, front, back, hsplit, rfl, ?_⟩
    · rw [RemoveListener_eq, if_pos hin, herase]
    · rw [AddListener_eq]
      simp only [hnil, hnot, or_self, if_false]
    · rw [hsplit]
      constructor
      · intro heq
        simp only [List.append_assoc, List.append_cancel_left_eq] at heq
        cases back with
        | nil => rfl
        | cons b bs =>
          simp only [List.cons_append, List.cons.injEq] at heq
          exact absurd (heq.1 ▸ List.mem_cons_self b bs) hback
      · intro hb
        subst hb
        simp

theorem C19_round_trip_witness :
    (∃ s1 s2, (⟨[some 1, some 2]⟩ : sharedEventEmitter Nat).AddListener (some 3)
        = .ok (true, s1) ∧
      s1.RemoveListener (some 3) = .ok (true, s2) ∧ s2.listeners = [some 1, some 2]) ∧
    (∃ s1 s2, (⟨[some 1, some 2, some 3]⟩ : sharedEventEmitter Nat).RemoveListener (some 2)
        = .ok (true, s1) ∧
      s1.AddListener (some 2) = .ok (true, s2) ∧
      ∃ front back, [some 1, some 2, some 3] = front ++ some 2 :: back ∧
        s2.listeners = front ++ back ++ [some 2] ∧
        (s2.listeners = [some 1, some 2, some 3] ↔ back = [])) :=
  ⟨(@C19_round_trip Nat _).1 ⟨[some 1, some 2]⟩ (some 3) (by decide) (by decide),
    (@C19_round_trip Nat _).2 ⟨[some 1, some 2, some 3]⟩ (some 2)
      ⟨[Call.add (some 1), Call.add (some 2), Call.add (some 3)], [true, true, true], rfl⟩
      (by decide)⟩

/-- C20: any sequence of calls on an empty emitter returns one boolean per call,
and the length of the listener sequence it leaves is the number of
`AddListener` calls that returned true minus the number of `RemoveListener`
calls that returned true.  On any state, a call that returns false leaves the
sequence as it was, an `AddListener` that returns true makes it one entry
longer and a `RemoveListener` that returns true one entry shorter. -/
theorem C20_size_accounting (cs : List (Call α)) :
    (∃ bs s, runCalls cs sharedEventEmitter.zero = .ok (bs, s) ∧ bs.length = cs.length ∧
      (s.listeners.length : Int)
        = (addsTrue (cs.zip bs) : Int) - (removesTrue (cs.zip bs) : Int)) ∧
    (∀ (c : Call α) (t t1 : sharedEventEmitter α) (b : Bool), c.apply t = .ok (b, t1) →
      (b = false → t1.listeners = t.listeners) ∧
      (b = true → match c with
        | .add _ => t1.listeners.length = t.listeners.length + 1
        | .remove _ => t1.listeners.length + 1 = t.listeners.length)) := by
  constructor
  · obtain ⟨bs, s, hrun⟩ := runCalls_ok cs (sharedEventEmitter.zero : sharedEventEmitter α)
    obtain ⟨hlen, hsize⟩ := runCalls_size cs _ s bs hrun
    refine ⟨bs, s, hrun, hlen, ?_⟩
    simp only [sharedEventEmitter.zero, List.length_nil, Nat.zero_add] at hsize
    omega
  · intro c t t1 b h
    have hl := Call.apply_listeners c t t1 b h
    cases c with
    | add l =>
      rcases hl with ⟨hb, hs1, _⟩ | ⟨hb, hs1, _, _⟩
      · subst hb
        exact ⟨fun _ => by rw [hs1], fun h => by cases h⟩
      · subst hb
        exact ⟨fun h => Bool.noConfusion h, fun _ => by simp [hs1]⟩
    | remove l =>
      rcases hl with ⟨hb, hs1, _⟩ | ⟨hb, hs1, hin⟩
      · subst hb
        exact ⟨fun _ => by rw [hs1], fun h => by cases h⟩
      · subst hb
        refine ⟨fun h => Bool.noConfusion h, fun _ => ?_⟩
        have hpos : 0 < t.listeners.length := List.length_pos_of_mem hin
        simp only [hs1, List.length_erase_of_mem hin]
        omega

theorem C20_size_accounting_witness :
    (∃ bs s, runCalls [Call.add (some 1), Call.add none, Call.add (some 1),
          Call.remove (some 2), Call.add (some 2), Call.remove (some 1)]
          (sharedEventEmitter.zero : sharedEventEmitter Nat) = .ok (bs, s) ∧
      bs.length = 6 ∧ s.listeners = [some 2] ∧
      (s.listeners.length : Int)
        = (addsTrue ([Call.add (some 1), Call.add none, Call.add (some 1),
            Call.remove (some 2), Call.add (some 2), Call.remove (some 1)].zip bs) : Int)
          - (removesTrue ([Call.add (some 1), Call.add none, Call.add (some 1),
            Call.remove (some 2), Call.add (some 2), Call.remove (some 1)].zip bs) : Int)) ∧
    ((false = false → ([some 1] : List (EventListener Nat)) = [some 1]) ∧
      (false = true → ([some 1] : List (EventListener Nat)).length = [some 1].length + 1)) := by
  have h := @C20_size_accounting Nat _ [Call.add (some 1), Call.add none, Call.add (some 1),
    Call.remove (some 2), Call.add (some 2), Call.remove (some 1)]
  obtain ⟨⟨bs, s, hrun, hlen, hsize⟩, hstep⟩ := h
  have hval : runCalls [Call.add (some 1), Call.add none, Call.add (some 1),
      Call.remove (some 2), Call.add (some 2), Call.remove (some 1)]
      (sharedEventEmitter.zero : sharedEventEmitter Nat)
      = .ok ([true, false, false, false, true, true], ⟨[some 2]⟩) := rfl
  have heq := hrun.symm.trans hval
  injection heq with heq
  injection heq with hbs hs
  subst hbs hs
  exact ⟨⟨_, _, hrun, hlen, rfl, hsize⟩,
    hstep (Call.add (some 1)) ⟨[some 1]⟩ ⟨[some 1]⟩ false rfl⟩

end Claims

end Eventer
